import Mathlib

/-!
Verification of the `k_archives` library (Konami archive tools).

This file shallowly embeds the Rust sources of `k_archives` in Lean:

* `src/k_archives/src/mar.rs` — the MAR stream cipher (`MarCipher`,
  `MarKeystream`, `MarKeystreamIterator`), the reference implementation
  `reference_crypt` from its test module, and the MAR entry parser;
* `src/k_archives/src/qar.rs`, `bar.rs`, `cab.rs`, `d2.rs` — the
  per-parser file-name readers;
* `src/k_archives/src/common.rs` — `KArchive::open` and `KFile`
  read/seek.

Machine integers (`u32`, `u64`) are modelled as `Nat` with explicit
`% 2^32` where the Rust code wraps; `i64` seek deltas are modelled as
`Int`.  Rust's `HashMap<u64, u32>` is modelled as an association list
`List (Nat × Nat)` with first-match lookup; every value the code derives
from the map (nearest-checkpoint scan, lookups) is order independent, so
the list model is faithful to any hash iteration order.
-/

set_option linter.unusedVariables false

namespace KA

/-- Model of `u32::rotate_left(5)`, written as the Rust reference code
spells it: `(w << 5) | (w >> 27)` with a wrapping 32-bit shift. -/
def rotl5 (w : Nat) : Nat := ((w <<< 5) % 2 ^ 32) ||| (w >>> 27)

/-- Model of `u32::rotate_right(5)`: `(w >> 5) | (w << 27)` with a
wrapping 32-bit shift. -/
def rotr5 (w : Nat) : Nat := (w >>> 5) ||| ((w <<< 27) % 2 ^ 32)

namespace MarKeystream

/-- Embeds `MarKeystream::next_subkey`:
`key.wrapping_add(subkey).rotate_left(5)`. -/
def next_subkey (subkey key : Nat) : Nat := rotl5 ((key + subkey) % 2 ^ 32)

/-- Embeds `MarKeystream::prev_subkey`:
`subkey.rotate_right(5).wrapping_sub(key)`. -/
def prev_subkey (subkey key : Nat) : Nat :=
  (rotr5 subkey + (2 ^ 32 - key % 2 ^ 32)) % 2 ^ 32

end MarKeystream

/-- The true subkey of block `n`: `subkey₀ = rotl5(key + iv)` and
`subkeyₙ = rotl5(key + subkey_{n-1})`, with wrapping 32-bit addition. -/
def subkeyAt (key iv : Nat) : Nat → Nat
  | 0 => MarKeystream.next_subkey iv key
  | n + 1 => MarKeystream.next_subkey (subkeyAt key iv n) key

/-- Byte `j` of the little-endian encoding of a 32-bit word. -/
def leByte (x j : Nat) : Nat := (x >>> (8 * j)) % 256

/-- Embeds `u32::to_le_bytes`: the 4-byte little-endian block produced by
the keystream iterator for one subkey. -/
def leBytes (x : Nat) : List Nat :=
  [x % 256, (x >>> 8) % 256, (x >>> 16) % 256, (x >>> 24) % 256]

/-- Embeds `u32::from_le_bytes` on a 4-byte block. -/
def word_of_le (bs : List Nat) : Nat :=
  match bs with
  | [a, b, c, d] => a + 256 * b + 65536 * c + 16777216 * d
  | _ => 0

/-- Association-list model of the checkpoint `HashMap<u64, u32>`:
first-binding lookup. -/
def hmGet (m : List (Nat × Nat)) (k : Nat) : Option Nat :=
  match m with
  | [] => none
  | (k', v) :: rest => if k' = k then some v else hmGet rest k

/-- `HashMap::insert` (replace an existing binding). -/
def hmInsert (m : List (Nat × Nat)) (k v : Nat) : List (Nat × Nat) :=
  (k, v) :: m.filter (fun e => e.1 != k)

/-- Embeds the `MarKeystreamIterator` struct. -/
structure MarKeystreamIterator where
  key : Nat
  subkey : Nat
  previous_subkey : Option Nat
deriving Repr, DecidableEq

/-- Embeds the `MarKeystream` struct: the cipher key and the checkpoint
map `block_offset → subkey`. -/
structure MarKeystream where
  key : Nat
  subkeys : List (Nat × Nat)
deriving Repr, DecidableEq

namespace MarKeystream

/-- Embeds `MarKeystream::new`: record the key and seed the checkpoint
map with `(0, rotate_left_5(key + iv))`. -/
def new (key iv : Nat) : MarKeystream :=
  { key := key, subkeys := [(0, next_subkey iv key)] }

/-- Embeds `MarKeystream::add_checkpoint`:
`self.subkeys.entry(pos).or_insert(subkey)`. -/
def add_checkpoint (ks : MarKeystream) (pos subkey : Nat) : MarKeystream :=
  if (hmGet ks.subkeys pos).isSome then ks
  else { ks with subkeys := (pos, subkey) :: ks.subkeys }

end MarKeystream

/-- One step of the nearest-low scan in `get_keystream`:
`if pos <= block_start && pos > nearest_pos_low { nearest_pos_low = pos }`. -/
def nlStep (bs acc p : Nat) : Nat := if p ≤ bs ∧ acc < p then p else acc

/-- One step of the nearest-high scan in `get_keystream`. -/
def nhStep (bs : Nat) (acc : Option Nat) (p : Nat) : Option Nat :=
  if bs < p ∧ (acc.isNone ∨ p < acc.getD 0) then some p else acc

/-- The nearest checkpoint position at or below `bs` (the fold in
`get_keystream`, starting from 0). The fold is order independent, so the
association-list order faithfully models any hash iteration order. -/
def nearestLow (keys : List Nat) (bs : Nat) : Nat :=
  keys.foldl (nlStep bs) 0

/-- The nearest checkpoint position strictly above `bs`, if any. -/
def nearestHigh (keys : List Nat) (bs : Nat) : Option Nat :=
  keys.foldl (nhStep bs) none

/-- The forward walk in `get_keystream`: step `next_subkey` from the
nearest low checkpoint up to `block_start`, inserting every
0x1000-aligned block passed. -/
def walkForward (key low target subkey : Nat) (m : List (Nat × Nat)) :
    Nat × List (Nat × Nat) :=
  if low < target then
    let subkey' := MarKeystream.next_subkey subkey key
    let low' := low + 4
    let m' := if low' % 4096 = 0 then hmInsert m low' subkey' else m
    walkForward key low' target subkey' m'
  else (subkey, m)
termination_by target - low
decreasing_by omega

/-- The backward walk in `get_keystream`: step `prev_subkey` from the
nearest high checkpoint down to `block_start`. -/
def walkBackward (key high target subkey : Nat) (m : List (Nat × Nat)) :
    Nat × List (Nat × Nat) :=
  if target < high then
    let subkey' := MarKeystream.prev_subkey subkey key
    let high' := high - 4
    let m' := if high' % 4096 = 0 then hmInsert m high' subkey' else m
    walkBackward key high' target subkey' m'
  else (subkey, m)
termination_by high
decreasing_by omega

/-- Embeds `MarKeystream::get_keystream`: find (or reconstruct) the
subkey of the block containing `pos` and return an iterator positioned
at that block, together with the possibly-extended checkpoint map.
The `.getD 0` defaults model the `unwrap()` calls; the safety theorem
for the map shows they are never exercised with `0`-entry maps. -/
def MarKeystream.get_keystream (ks : MarKeystream) (pos : Nat) :
    MarKeystreamIterator × MarKeystream :=
  let block_start := pos - pos % 4
  let res : Nat × MarKeystream :=
    match hmGet ks.subkeys block_start with
    | some subkey => (subkey, ks)
    | none =>
      match hmGet ks.subkeys (block_start - 4) with
      | some prev => (MarKeystream.next_subkey prev ks.key, ks)
      | none =>
        let keys := ks.subkeys.map Prod.fst
        let npLow := nearestLow keys block_start
        let npHigh := nearestHigh keys block_start
        if npHigh.isNone ∨ npHigh.getD 0 - block_start > block_start - npLow then
          let r := walkForward ks.key npLow block_start
            ((hmGet ks.subkeys npLow).getD 0) ks.subkeys
          (r.1, { ks with subkeys := r.2 })
        else
          let r := walkBackward ks.key (npHigh.getD 0) block_start
            ((hmGet ks.subkeys (npHigh.getD 0)).getD 0) ks.subkeys
          (r.1, { ks with subkeys := r.2 })
  ({ key := ks.key, subkey := res.1, previous_subkey := none }, res.2)

/-- The checkpoint-map contents invariant: entry `(0, subkey₀)` is
present, and every entry maps a 0x1000-aligned block offset to the true
subkey of that block. -/
def MapInv (key iv : Nat) (m : List (Nat × Nat)) : Prop :=
  hmGet m 0 = some (subkeyAt key iv 0) ∧
  ∀ e ∈ m, e.1 % 4096 = 0 ∧ e.2 = subkeyAt key iv (e.1 / 4)

/-- The checkpoint-map invariant of claim C4: the cipher key is recorded
and the map contents satisfy `MapInv`. -/
def CheckpointInv (key iv : Nat) (ks : MarKeystream) : Prop :=
  ks.key = key ∧ MapInv key iv ks.subkeys

instance (key iv : Nat) (m : List (Nat × Nat)) : Decidable (MapInv key iv m) := by
  unfold MapInv
  infer_instance

instance (key iv : Nat) (ks : MarKeystream) : Decidable (CheckpointInv key iv ks) := by
  unfold CheckpointInv
  infer_instance

namespace MarKeystreamIterator

/-- One `next()` of the keystream iterator: yield the little-endian bytes
of the current subkey, remember it, and advance. -/
def next (it : MarKeystreamIterator) : List Nat × MarKeystreamIterator :=
  (leBytes it.subkey,
   { it with previous_subkey := some it.subkey,
             subkey := MarKeystream.next_subkey it.subkey it.key })

/-- Embeds `MarKeystreamIterator::rewind`: step back to the previously
yielded subkey (a no-op when nothing was yielded yet). -/
def rewind (it : MarKeystreamIterator) : MarKeystreamIterator :=
  match it.previous_subkey with
  | some prev =>
    { it with subkey := prev,
              previous_subkey := some (MarKeystream.prev_subkey prev it.key) }
  | none => it

end MarKeystreamIterator

/-- Embeds the `MarCipher` struct. -/
structure MarCipher where
  keystream : MarKeystream
  current_iterator : Option MarKeystreamIterator
  pos : Nat
  size : Nat
deriving Repr, DecidableEq

namespace MarCipher

/-- Embeds `MarCipher::new`. -/
def new (key iv size : Nat) : MarCipher :=
  { keystream := MarKeystream.new key iv, current_iterator := none, pos := 0,
    size := size }

end MarCipher

/-- The `for key_block in key_iterator` loop body of `MarCipher::crypt`,
operating on the mutable slice `data`.  Returns the final iterator,
keystream, position and the crypted buffer. -/
def cryptLoop (it : MarKeystreamIterator) (ks : MarKeystream) (pos size : Nat) :
    List Nat → MarKeystreamIterator × MarKeystream × Nat × List Nat
  | [] => (it, ks, pos, [])
  | d :: ds =>
    let nx := it.next
    let key_block := nx.1
    let it' := nx.2
    if pos % 4 = 0 ∧ size < pos + 4 then
      -- the final-block quirk: XOR only data[0] with the first
      -- (size - pos) bytes of the block, then jump to the end
      (it', ks, size,
       ((key_block.take (size - pos)).foldl (fun a k => a ^^^ k) d) :: ds)
    else
      let ks' := if pos % 4096 = 0 then ks.add_checkpoint pos (word_of_le key_block)
                 else ks
      let ab := key_block.drop (pos % 4)
      let n := min ab.length (d :: ds).length
      let out := List.zipWith (fun k x => x ^^^ k) ab (d :: ds)
      let rest := (d :: ds).drop n
      if rest.isEmpty then (it', ks', pos + n, out)
      else
        let r := cryptLoop it' ks' (pos + n) size rest
        (r.1, r.2.1, r.2.2.1, out ++ r.2.2.2)
termination_by data => data.length
decreasing_by
  simp [List.length_drop, leBytes, MarKeystreamIterator.next]
  omega

/-- Embeds `MarCipher::crypt`. -/
def MarCipher.crypt (c : MarCipher) (data : List Nat) : MarCipher × List Nat :=
  if c.pos = c.size ∨ data.isEmpty then (c, data)
  else
    let itks : MarKeystreamIterator × MarKeystream :=
      match c.current_iterator with
      | some it => (if c.pos % 4 ≠ 0 then it.rewind else it, c.keystream)
      | none => c.keystream.get_keystream c.pos
    let r := cryptLoop itks.1 itks.2 c.pos c.size data
    ({ keystream := r.2.1, current_iterator := some r.1, pos := r.2.2.1,
       size := c.size },
     r.2.2.2)

/-- Embeds `MarCipher::seek_internal`. -/
def MarCipher.seek_internal (c : MarCipher) (new_pos : Nat) : MarCipher :=
  { c with current_iterator := none, pos := min c.size new_pos }

/-- Model of `std::io::SeekFrom` (`i64` deltas as `Int`). -/
inductive SeekFrom where
  | start (n : Nat)
  | fromEnd (n : Int)
  | current (n : Int)
deriving Repr, DecidableEq

/-- Embeds `<MarCipher as Seek>::seek`.  `saturating_add_signed` is
modelled by `Int.toNat` of the exact sum, which saturates at 0 (the
`u64::MAX` saturation is unreachable at the sizes the theorems use). -/
def MarCipher.seek (c : MarCipher) (sf : SeekFrom) : Option Nat × MarCipher :=
  match sf with
  | .start x =>
    let c' := c.seek_internal x
    (some c'.pos, c')
  | .fromEnd x =>
    if x < 0 ∧ c.size < x.natAbs then (none, c)
    else
      let c' := c.seek_internal ((c.size : Int) + x).toNat
      (some c'.pos, c')
  | .current x =>
    if x < 0 ∧ c.pos < x.natAbs then (none, c)
    else
      let c' := c.seek_internal ((c.pos : Int) + x).toNat
      (some c'.pos, c')

/-- Keystream byte at absolute stream position `i`. -/
def ksByte (key iv i : Nat) : Nat := leByte (subkeyAt key iv (i / 4)) (i % 4)

/-- The accumulated XOR of the first `r` bytes of the keystream block
with subkey `s` — what the final-block quirk folds onto a single byte. -/
def tailKs (s r : Nat) : Nat :=
  ((leBytes s).take r).foldl (fun a k => a ^^^ k) 0

/-- What the cipher does to the byte at stream position `j` of a file of
`size` bytes: full blocks XOR with the keystream; the first byte of a
partial final block absorbs the folded tail keystream; later tail bytes
pass through unchanged. -/
def streamByte (key iv size j d : Nat) : Nat :=
  if j < 4 * (size / 4) then d ^^^ ksByte key iv j
  else if j = 4 * (size / 4) ∧ size % 4 ≠ 0 then
    d ^^^ tailKs (subkeyAt key iv (size / 4)) (size % 4)
  else d

/-- The intended output of crypting a window of bytes starting at stream
position `j` in a file of `size` bytes. -/
def cryptRef (key iv size : Nat) : Nat → List Nat → List Nat
  | _, [] => []
  | j, d :: ds => streamByte key iv size j d :: cryptRef key iv size (j + 1) ds

/-- Coherence of a (possibly absent) current iterator with the cipher
position: mid-block the iterator has advanced past the current block and
remembers it for `rewind`; at a block boundary (not yet at end of file)
it sits exactly on the current block. -/
def IterCoh (key iv pos size : Nat) : Option MarKeystreamIterator → Prop
  | none => True
  | some it =>
      it.key = key ∧
      (pos % 4 = 0 → pos < size → it.subkey = subkeyAt key iv (pos / 4)) ∧
      (pos % 4 ≠ 0 → it.subkey = subkeyAt key iv (pos / 4 + 1) ∧
        it.previous_subkey = some (subkeyAt key iv (pos / 4)))

instance (key iv pos size : Nat) : (o : Option MarKeystreamIterator) →
    Decidable (IterCoh key iv pos size o)
  | none => Decidable.isTrue trivial
  | some it => by unfold IterCoh; infer_instance

/-- The full cipher-state invariant: checkpoint map correct, position in
bounds, iterator coherent. -/
def CipherInv (key iv : Nat) (c : MarCipher) : Prop :=
  CheckpointInv key iv c.keystream ∧ c.pos ≤ c.size ∧
  IterCoh key iv c.pos c.size c.current_iterator

instance (key iv : Nat) (c : MarCipher) : Decidable (CipherInv key iv c) := by
  unfold CipherInv
  infer_instance

/-- Embeds the block loop of the test module's `reference_crypt`: advance
`k`, XOR four bytes per full block; when fewer than four bytes remain,
XOR only the byte at the current index with each remaining keystream
byte of the (already advanced) block. -/
def reference_crypt_go (key k : Nat) : List Nat → List Nat
  | [] => []
  | a :: b :: c :: d :: rest =>
    let k2 := (key + k) % 2 ^ 32
    let kn := rotl5 k2
    (a ^^^ kn % 256) :: (b ^^^ (kn >>> 8) % 256) :: (c ^^^ (kn >>> 16) % 256) ::
      (d ^^^ (kn >>> 24) % 256) :: reference_crypt_go key kn rest
  | a :: rest =>
    let k2 := (key + k) % 2 ^ 32
    let kn := rotl5 k2
    ((List.range (a :: rest).length).foldl
      (fun x j => x ^^^ (kn >>> (8 * j)) % 256) a) :: rest

/-- Embeds the test module's `reference_crypt` (the loop starts with
`k = iv`). -/
def reference_crypt (key iv : Nat) (data : List Nat) : List Nat :=
  reference_crypt_go key iv data

/-- The chunk driver: crypt consecutive chunks with one evolving cipher,
concatenating the outputs (how `KFile::read` consumes the cipher). -/
def cryptChunks (c : MarCipher) : List (List Nat) → MarCipher × List Nat
  | [] => (c, [])
  | ch :: rest =>
    let r := c.crypt ch
    let r2 := cryptChunks r.1 rest
    (r2.1, r.2 ++ r2.2)

/-! ## Byte-stream reading primitives shared by the archive parsers

The Rust parsers read from a `BufRead + Seek` source.  We model the
source as a `List Nat` of bytes together with an explicit cursor
position.  `read_until(0, &mut buf)` reads bytes up to and including
the first NUL (or to end of input if no NUL occurs), `read_u32` reads
four little-endian bytes. -/

/-- Embeds `rdr.read_until(0, &mut buf)` applied to the remaining input:
the returned buffer contains every byte up to and including the first
`0`, or all remaining bytes when no `0` occurs before end of input. -/
def readUntilZero : List Nat → List Nat
  | [] => []
  | b :: rest => if b = 0 then [0] else b :: readUntilZero rest

/-- Embeds `read_u32::<LittleEndian>()` at cursor `pos`: the next four
bytes assembled little-endian, or `none` at end of input (the
`UnexpectedEof` error). -/
def readU32le (input : List Nat) (pos : Nat) : Option Nat :=
  match input.drop pos with
  | a :: b :: c :: d :: _ => some (a + 256 * b + 2 ^ 16 * c + 2 ^ 24 * d)
  | _ => none

/-- Little-endian 4-byte encoding of a `u32` value, used to build
concrete input streams in theorems. -/
def toLE4 (n : Nat) : List Nat :=
  [n % 256, n / 256 % 256, n / 2 ^ 16 % 256, n / 2 ^ 24 % 256]

/-! ## The per-format `read_file_name` functions (C7)

Byte values: `46 = '.'`, `92 = backslash`, `47 = '/'`, `0 = NUL`.
Names are kept as raw byte lists; the UTF-8 validity check of
`String::from_utf8` is elided (it only rejects, never rewrites bytes). -/

/-- Embeds the string sanitization of `mar::read_file_name`:
`.trim_start_matches(['.', '\\', '/']).replace('\\', "/")`. -/
def mar_sanitize (raw : List Nat) : List Nat :=
  (raw.dropWhile (fun b => b == 46 || b == 92 || b == 47)).map
    (fun b => if b == 92 then 47 else b)

/-- Embeds the string sanitization shared by `qar::read_file_name` and
`bar::read_file_name`: `.trim_start_matches(['.', '\\'])` — note `'/'`
is NOT in the trim set — then `.replace('\\', "/")`. -/
def qbar_sanitize (raw : List Nat) : List Nat :=
  (raw.dropWhile (fun b => b == 46 || b == 92)).map
    (fun b => if b == 92 then 47 else b)

/-- Embeds `mar::read_file_name` at cursor `pos`: `read_until(0)`, then
`buf.remove(buf.len() - 1)` (an index panic — `none` — when the buffer
is empty, i.e. at end of input), returning the sanitized name, the raw
name (CRC input), and the new cursor. -/
def mar_read_file_name (input : List Nat) (pos : Nat) :
    Option (List Nat × List Nat × Nat) :=
  if (readUntilZero (input.drop pos)).isEmpty then none
  else
    some (mar_sanitize (readUntilZero (input.drop pos)).dropLast,
          (readUntilZero (input.drop pos)).dropLast,
          pos + (readUntilZero (input.drop pos)).length)

/-- Embeds `qar::read_file_name` at cursor `pos`: `read_until(0)`, seek
to the end of the fixed 132-byte name field, `strip_suffix(&[0])`
(`none` — the `Other` error — when the buffer does not end in NUL),
then trim/replace. -/
def qar_read_file_name (input : List Nat) (pos : Nat) :
    Option (List Nat × Nat) :=
  if (readUntilZero (input.drop pos)).getLast? = some 0 then
    some (qbar_sanitize (readUntilZero (input.drop pos)).dropLast, pos + 132)
  else none

/-- Embeds `bar::read_file_name`: identical to the QAR reader except the
name field is 256 bytes wide. -/
def bar_read_file_name (input : List Nat) (pos : Nat) :
    Option (List Nat × Nat) :=
  if (readUntilZero (input.drop pos)).getLast? = some 0 then
    some (qbar_sanitize (readUntilZero (input.drop pos)).dropLast, pos + 256)
  else none

/-- Embeds `cab::read_file_name`: `read_until(0)` then
`strip_suffix(&[0])` — no trimming and no separator replacement. -/
def cab_read_file_name (input : List Nat) (pos : Nat) :
    Option (List Nat × Nat) :=
  if (readUntilZero (input.drop pos)).getLast? = some 0 then
    some ((readUntilZero (input.drop pos)).dropLast,
          pos + (readUntilZero (input.drop pos)).length)
  else none

/-- Embeds `d2::read_file_header`: asserts the first byte is `1`
(`none` covers both the failed assertion and end of input), reads the
`u32` path length and file size, skips the 0x10 checksum bytes, and
returns the name bytes completely unmodified together with the size. -/
def d2_read_file_header (input : List Nat) (pos : Nat) :
    Option (List Nat × Nat) :=
  match input.drop pos with
  | 1 :: _ =>
    match readU32le input (pos + 1), readU32le input (pos + 5) with
    | some path_len, some filesize =>
      if pos + 25 + path_len ≤ input.length then
        some ((input.drop (pos + 25)).take path_len, filesize)
      else none
    | _, _ => none
  | _ => none

/-- Spec-side definition, following the words of the path-normalization
claim: strip all leading `'.'`, `'\\'`, `'/'`; replace `'\\'` with
`'/'` (`raw` is the stored name with the trailing NUL already
dropped). -/
def claimed_path_normalize (raw : List Nat) : List Nat :=
  (raw.dropWhile (fun b => b == 46 || b == 92 || b == 47)).map
    (fun b => if b == 92 then 47 else b)

/-! ## The MAR archive parser (C5) -/

/-- Outcome of the MAR entry loop: `finished files warned` models the
loop exiting normally (`warned = true` when the exit was the
`Err(e) => eprintln + break` arm, `false` for the silent
`Err(Other) => break` arm reached via tag `0xFF`), while `crashed`
models the `unreachable!("Invalid mar")` panic (process abort). -/
inductive MarParseDone where
  | finished (files : List (List Nat × Nat × Nat)) (warned : Bool)
  | crashed
deriving Repr, DecidableEq

/-- Embeds the `loop { match parse_result() ... }` of `mar::parse`.
Each accepted tag-1 entry appends `(sanitized_name, size, offset)` to
`files` (the CRC-based cipher derivation for `M32` archives is carried
by `KFileInfo.cipher` and is orthogonal to the control flow modelled
here).  Tag 2 reads and discards a name; tag `0xFF` raises
`Err(Other)`, broken out of silently; end of input raises an IO error,
reported with the warning; any other tag hits
`unreachable!("Invalid mar")`. -/
def mar_parse_loop (input : List Nat) (pos : Nat)
    (files : List (List Nat × Nat × Nat)) : MarParseDone :=
  match hm : input[pos]? with
  | none => .finished files true
  | some tag =>
    if tag = 1 then
      match hmn : mar_read_file_name input (pos + 1) with
      | none => .crashed
      | some (name, _raw, p1) =>
        match readU32le input p1 with
        | none => .finished files true
        | some size =>
          mar_parse_loop input (p1 + 4 + size) (files ++ [(name, size, p1 + 4)])
    else if tag = 2 then
      match hmn : mar_read_file_name input (pos + 1) with
      | none => .crashed
      | some (_, _, p1) => mar_parse_loop input p1 files
    else if tag = 255 then .finished files false
    else .crashed
termination_by input.length - pos
decreasing_by
  all_goals
    (have h1 : pos < input.length := by
      rcases Nat.lt_or_ge pos input.length with hlt | hge
      · exact hlt
      · rw [List.getElem?_eq_none hge] at hm
        exact Option.noConfusion hm)
  all_goals
    (have h2 : pos + 1 < p1 := by
      unfold mar_read_file_name at hmn
      by_cases hb : (readUntilZero (input.drop (pos + 1))).isEmpty
      · rw [if_pos hb] at hmn
        exact Option.noConfusion hmn
      · rw [if_neg hb] at hmn
        have hone : 1 ≤ (readUntilZero (input.drop (pos + 1))).length := by
          cases hrz : readUntilZero (input.drop (pos + 1)) with
          | nil => rw [hrz] at hb; simp at hb
          | cons x xs => simp
        have hproj := congrArg (fun t => t.2.2) (Option.some.inj hmn)
        simp only at hproj
        omega)
  all_goals omega

/-- Embeds `mar::parse`: `none` is the fatal propagated error for a
missing or wrong `MASMAR0\x00` magic; otherwise the entry loop runs
from offset 8. -/
def mar_parse (input : List Nat) : Option MarParseDone :=
  if input.take 8 = [77, 65, 83, 77, 65, 82, 48, 0] then
    some (mar_parse_loop input 8 [])
  else none

/-- A MAR stream whose magic is correct, whose first entry (tag 1, name
`"a"`, size 0) parses fine, and whose next tag byte is `3`. -/
def marBadTagInput : List Nat :=
  [77, 65, 83, 77, 65, 82, 48, 0, 1, 97, 0, 0, 0, 0, 0, 3]

/-! ## KFile and KArchive (C6, C8) -/

/-- Embeds `common::KFileInfo`. -/
structure KFileInfoM where
  size : Nat
  offset : Nat
  cipher : Option MarCipher
deriving Repr, DecidableEq

/-- Embeds `common::KFile` (the `name` and the underlying OS handle are
dropped; `pos` is the logical position). -/
structure KFileM where
  info : KFileInfoM
  pos : Nat
deriving Repr, DecidableEq

/-- Embeds the `match pos { ... }` body of `<KFile as Seek>::seek`
(everything after the cipher seek).  `saturating_add_signed` is
modelled by `Int.toNat` of the exact sum.  `none` is the
`InvalidInput` error. -/
def KFileM.seekAfterCipher (f : KFileM) (sf : SeekFrom) :
    Option (Nat × KFileM) :=
  match sf with
  | .start n => some (n, { f with pos := n })
  | .fromEnd n =>
    if n < 0 ∧ f.info.size < n.natAbs then none
    else
      some (((f.info.size : Int) + n).toNat,
            { f with pos := ((f.info.size : Int) + n).toNat })
  | .current n =>
    if n < 0 ∧ f.pos < n.natAbs then none
    else
      some (((f.pos : Int) + n).toNat,
            { f with pos := ((f.pos : Int) + n).toNat })

/-- Embeds `<KFile as Seek>::seek`: when the file is cipher-backed,
`cipher.seek(pos)?` runs FIRST and its error aborts the whole seek
before the `KFile` position is touched. -/
def KFileM.seek (f : KFileM) (sf : SeekFrom) : Option (Nat × KFileM) :=
  match f.info.cipher with
  | some cipher =>
    match cipher.seek sf with
    | (none, _) => none
    | (some _, cipher') =>
      KFileM.seekAfterCipher
        { f with info := { f.info with cipher := some cipher' } } sf
  | none => KFileM.seekAfterCipher f sf

/-- Embeds `<KFile as Read>::read`.  `raw` is the byte stream the
underlying file yields at the current physical offset, `buflen` the
caller's buffer length; the underlying read is modelled as filling the
request completely whenever `raw` is long enough. -/
def KFileM.read (f : KFileM) (raw : List Nat) (buflen : Nat) :
    KFileM × List Nat :=
  if f.info.size ≤ f.pos then (f, [])
  else
    let chunk := raw.take (min buflen (f.info.size - f.pos))
    match f.info.cipher with
    | none => ({ f with pos := f.pos + chunk.length }, chunk)
    | some cipher =>
      let r := cipher.crypt chunk
      ({ f with info := { f.info with cipher := some r.1 },
                pos := f.pos + chunk.length }, r.2)

/-- Embeds `common::KArchiveInner` (paths as byte lists; the archive
path and buffer are dropped). -/
structure KArchiveInnerM where
  files : List (List Nat × KFileInfoM)
deriving Repr, DecidableEq

/-- Embeds `HashMap::get` on a parser-built file map, as an association
list (parser maps have unique keys, so first-match lookup is exact). -/
def hmGetP (m : List (List Nat × KFileInfoM)) (k : List Nat) :
    Option KFileInfoM :=
  match m with
  | [] => none
  | (ek, v) :: rest => if ek = k then some v else hmGetP rest k

/-- Embeds the `for archive in &self.archives` scan of
`KArchive::open`: the first backing whose map contains the path wins,
and `KFile::open` starts the file at logical position 0. -/
def openScan (archives : List KArchiveInnerM) (path : List Nat) :
    Option KFileM :=
  match archives with
  | [] => none
  | arc :: rest =>
    match hmGetP arc.files path with
    | some info => some ⟨info, 0⟩
    | none => openScan rest path

/-- Embeds `common::KArchive` (the ordered vector of backings). -/
structure KArchiveM where
  archives : List KArchiveInnerM
deriving Repr, DecidableEq

/-- Embeds `KArchive::open` (`open` itself is a Lean keyword);
`none` is the `NotFound` error. -/
def KArchiveM.openPath (a : KArchiveM) (path : List Nat) : Option KFileM :=
  openScan a.archives path

/-- Disjoint bit ranges let bitwise or act as addition: a low part smaller
than `2^k` ors onto a multiple of `2^k` additively. -/
theorem lor_two_pow_mul_add (k a b : Nat) (hb : b < 2 ^ k) :
    (2 ^ k * a) ||| b = 2 ^ k * a + b := by
  induction k generalizing b with
  | zero => interval_cases b <;> simp
  | succ k ih =>
    have hb2 : b / 2 < 2 ^ k := by omega
    have h1 : 2 ^ (k + 1) * a = Nat.bit false (2 ^ k * a) := by
      simp [Nat.bit_val]; ring
    have ihb := ih (b / 2) hb2
    calc (2 ^ (k + 1) * a) ||| b
        = (Nat.bit false (2 ^ k * a)) ||| (Nat.bit b.bodd b.div2) := by
          rw [← h1, Nat.bit_decomp]
      _ = Nat.bit (false || b.bodd) ((2 ^ k * a) ||| b.div2) := Nat.lor_bit _ _ _ _
      _ = 2 ^ (k + 1) * a + b := by
          have hd : 2 * (b / 2) + b.bodd.toNat = b := by
            cases hpar : b.bodd with
            | false =>
              have hm := Nat.mod_two_of_bodd b
              rw [hpar] at hm
              simp at hm ⊢
              omega
            | true =>
              have hm := Nat.mod_two_of_bodd b
              rw [hpar] at hm
              simp at hm ⊢
              omega
          simp only [Bool.false_or, Nat.bit_val, Nat.div2_val, ihb]
          have h2 : 2 ^ (k + 1) * a = 2 * (2 ^ k * a) := by ring
          omega

/-- Arithmetic form of `rotl5` on 32-bit values. -/
theorem rotl5_eq (w : Nat) (hw : w < 2 ^ 32) :
    rotl5 w = 2 ^ 5 * (w % 2 ^ 27) + w / 2 ^ 27 := by
  have h1 : (w <<< 5) % 2 ^ 32 = 2 ^ 5 * (w % 2 ^ 27) := by
    rw [Nat.shiftLeft_eq]
    have : w * 2 ^ 5 = 2 ^ 5 * w := by ring
    rw [this]
    have h32 : (2 ^ 32 : Nat) = 2 ^ 5 * 2 ^ 27 := by norm_num
    rw [h32, Nat.mul_mod_mul_left]
  have h2 : w >>> 27 = w / 2 ^ 27 := Nat.shiftRight_eq_div_pow w 27
  have h3 : w / 2 ^ 27 < 2 ^ 5 := by
    have : w < 2 ^ 27 * 2 ^ 5 := by norm_num at hw ⊢; omega
    exact Nat.div_lt_of_lt_mul this
  rw [rotl5, h1, h2]
  exact lor_two_pow_mul_add 5 (w % 2 ^ 27) (w / 2 ^ 27) h3

/-- Arithmetic form of `rotr5` on 32-bit values. -/
theorem rotr5_eq (w : Nat) (hw : w < 2 ^ 32) :
    rotr5 w = 2 ^ 27 * (w % 2 ^ 5) + w / 2 ^ 5 := by
  have h1 : (w <<< 27) % 2 ^ 32 = 2 ^ 27 * (w % 2 ^ 5) := by
    rw [Nat.shiftLeft_eq]
    have : w * 2 ^ 27 = 2 ^ 27 * w := by ring
    rw [this]
    have h32 : (2 ^ 32 : Nat) = 2 ^ 27 * 2 ^ 5 := by norm_num
    rw [h32, Nat.mul_mod_mul_left]
  have h2 : w >>> 5 = w / 2 ^ 5 := Nat.shiftRight_eq_div_pow w 5
  have h3 : w / 2 ^ 5 < 2 ^ 27 := by
    have : w < 2 ^ 5 * 2 ^ 27 := by norm_num at hw ⊢; omega
    exact Nat.div_lt_of_lt_mul this
  rw [rotr5, h1, h2, Nat.lor_comm]
  exact lor_two_pow_mul_add 27 (w % 2 ^ 5) (w / 2 ^ 5) h3

/-- Left rotation of a 32-bit value stays below `2^32`. -/
theorem rotl5_lt (w : Nat) (hw : w < 2 ^ 32) : rotl5 w < 2 ^ 32 := by
  rw [rotl5_eq w hw]
  have h1 : w % 2 ^ 27 < 2 ^ 27 := Nat.mod_lt _ (by norm_num)
  have h2 : w / 2 ^ 27 < 2 ^ 5 := by
    have : w < 2 ^ 27 * 2 ^ 5 := by norm_num at hw ⊢; omega
    exact Nat.div_lt_of_lt_mul this
  norm_num at h1 h2 ⊢
  omega

/-- Rotating left then right by five places is the identity on 32-bit
values. -/
theorem rotr5_rotl5 (w : Nat) (hw : w < 2 ^ 32) : rotr5 (rotl5 w) = w := by
  rw [rotl5_eq w hw, rotr5_eq _ (rotl5_eq w hw ▸ rotl5_lt w hw)]
  have h1 : w % 2 ^ 27 < 2 ^ 27 := Nat.mod_lt _ (by norm_num)
  have h2 : w / 2 ^ 27 < 2 ^ 5 := by
    have : w < 2 ^ 27 * 2 ^ 5 := by norm_num at hw ⊢; omega
    exact Nat.div_lt_of_lt_mul this
  norm_num at h1 h2 ⊢
  omega

theorem MarKeystream.next_subkey_lt (subkey key : Nat) :
    MarKeystream.next_subkey subkey key < 2 ^ 32 :=
  rotl5_lt _ (Nat.mod_lt _ (by norm_num))

/-- Stepping a subkey forward then backward returns it, for 32-bit
inputs. -/
theorem MarKeystream.prev_next_subkey (s k : Nat) (hs : s < 2 ^ 32)
    (hk : k < 2 ^ 32) :
    MarKeystream.prev_subkey (MarKeystream.next_subkey s k) k = s := by
  have harg : (k + s) % 2 ^ 32 < 2 ^ 32 := Nat.mod_lt _ (by norm_num)
  rw [MarKeystream.prev_subkey, MarKeystream.next_subkey, rotr5_rotl5 _ harg]
  omega

theorem subkeyAt_lt (key iv n : Nat) : subkeyAt key iv n < 2 ^ 32 := by
  cases n <;> exact MarKeystream.next_subkey_lt _ _

/-- Stepping backward from block `n+1` reaches block `n`. -/
theorem prev_subkeyAt (key iv n : Nat) (hk : key < 2 ^ 32) :
    MarKeystream.prev_subkey (subkeyAt key iv (n + 1)) key = subkeyAt key iv n := by
  have : subkeyAt key iv (n + 1) = MarKeystream.next_subkey (subkeyAt key iv n) key := rfl
  rw [this, MarKeystream.prev_next_subkey _ _ (subkeyAt_lt key iv n) hk]

theorem leBytes_length (x : Nat) : (leBytes x).length = 4 := rfl

theorem word_of_le_leBytes (x : Nat) (hx : x < 2 ^ 32) :
    word_of_le (leBytes x) = x := by
  simp only [leBytes, word_of_le, Nat.shiftRight_eq_div_pow]
  norm_num at hx ⊢
  omega

theorem hmGet_hmInsert (m : List (Nat × Nat)) (k v j : Nat) :
    hmGet (hmInsert m k v) j = if k = j then some v else hmGet m j := by
  simp only [hmInsert, hmGet]
  split
  · rfl
  · rename_i hkj
    induction m with
    | nil => simp [hmGet]
    | cons e rest ih =>
      rcases e with ⟨ek, ev⟩
      by_cases he : ek = k
      · have hne : ¬ek = j := by omega
        simp [List.filter, he, hmGet, hne, hkj, ih]
      · have hbne : (ek != k) = true := by simpa using he
        by_cases hej : ek = j
        · subst hej
          simp [List.filter, hbne, hmGet]
        · simp [List.filter, hbne, hmGet, hej, ih]

theorem hmGet_mem (m : List (Nat × Nat)) (k v : Nat) (h : hmGet m k = some v) :
    (k, v) ∈ m := by
  induction m with
  | nil => simp [hmGet] at h
  | cons e rest ih =>
    rcases e with ⟨ek, ev⟩
    by_cases hek : ek = k
    · simp [hmGet, hek] at h
      subst hek h
      exact List.mem_cons_self _ _
    · simp [hmGet, hek] at h
      exact List.mem_cons_of_mem _ (ih h)

theorem hmGet_isSome_of_mem_keys (m : List (Nat × Nat)) (k : Nat)
    (h : k ∈ m.map Prod.fst) : (hmGet m k).isSome := by
  induction m with
  | nil => simp at h
  | cons e rest ih =>
    rcases e with ⟨ek, ev⟩
    by_cases hek : ek = k
    · simp [hmGet, hek]
    · rw [List.map_cons, List.mem_cons] at h
      rcases h with h | h
      · exact absurd h.symm hek
      · simpa [hmGet, hek] using ih h

theorem mem_keys_of_hmGet (m : List (Nat × Nat)) (k : Nat)
    (h : (hmGet m k).isSome) : k ∈ m.map Prod.fst := by
  rcases Option.isSome_iff_exists.mp h with ⟨v, hv⟩
  exact List.mem_map.mpr ⟨(k, v), hmGet_mem m k v hv, rfl⟩

theorem MapInv_hmInsert (key iv : Nat) (m : List (Nat × Nat)) (p v : Nat)
    (hm : MapInv key iv m) (hp : p % 4096 = 0) (hv : v = subkeyAt key iv (p / 4)) :
    MapInv key iv (hmInsert m p v) := by
  constructor
  · rw [hmGet_hmInsert]
    split
    · rename_i h0
      subst h0
      simp [hv]
    · exact hm.1
  · intro e he
    rcases List.mem_cons.mp he with h | h
    · subst h
      exact ⟨hp, hv⟩
    · exact hm.2 e (List.mem_of_mem_filter h)

theorem MapInv_cons (key iv : Nat) (m : List (Nat × Nat)) (p v : Nat)
    (hm : MapInv key iv m) (hp : p % 4096 = 0) (hv : v = subkeyAt key iv (p / 4)) :
    MapInv key iv ((p, v) :: m) := by
  constructor
  · by_cases h0 : p = 0
    · subst h0
      simp [hmGet, hv]
    · simpa [hmGet, h0] using hm.1
  · intro e he
    rcases List.mem_cons.mp he with h | h
    · subst h
      exact ⟨hp, hv⟩
    · exact hm.2 e h

theorem nlStep_foldl_le (keys : List Nat) (bs acc : Nat) (ha : acc ≤ bs) :
    keys.foldl (nlStep bs) acc ≤ bs := by
  induction keys generalizing acc with
  | nil => simpa
  | cons p rest ih =>
    simp only [List.foldl, nlStep]
    split
    · rename_i h
      exact ih _ h.1
    · exact ih _ ha

theorem nlStep_foldl_mem (keys : List Nat) (bs acc : Nat) :
    keys.foldl (nlStep bs) acc = acc ∨ keys.foldl (nlStep bs) acc ∈ keys := by
  induction keys generalizing acc with
  | nil => simp
  | cons p rest ih
  =>
    simp only [List.foldl, nlStep]
    split
    · rcases ih p with h | h
      · exact Or.inr (by simp [h])
      · exact Or.inr (List.mem_cons_of_mem _ h)
    · rcases ih acc with h | h
      · exact Or.inl h
      · exact Or.inr (List.mem_cons_of_mem _ h)

theorem nearestLow_le (keys : List Nat) (bs : Nat) : nearestLow keys bs ≤ bs :=
  nlStep_foldl_le keys bs 0 (Nat.zero_le _)

theorem nearestLow_mem (keys : List Nat) (bs : Nat) :
    nearestLow keys bs = 0 ∨ nearestLow keys bs ∈ keys :=
  nlStep_foldl_mem keys bs 0

theorem nhStep_foldl_spec (keys : List Nat) (bs : Nat) (acc : Option Nat) :
    keys.foldl (nhStep bs) acc = acc ∨
      ∃ x, x ∈ keys ∧ bs < x ∧ keys.foldl (nhStep bs) acc = some x := by
  induction keys generalizing acc with
  | nil => simp
  | cons p rest ih
  =>
    simp only [List.foldl, nhStep]
    split
    · rename_i h
      rcases ih (some p) with hr | hr
      · exact Or.inr ⟨p, by simp, h.1, hr⟩
      · rcases hr with ⟨x, hx, hbx, hres⟩
        exact Or.inr ⟨x, List.mem_cons_of_mem _ hx, hbx, hres⟩
    · rcases ih acc with hr | hr
      · exact Or.inl hr
      · rcases hr with ⟨x, hx, hbx, hres⟩
        exact Or.inr ⟨x, List.mem_cons_of_mem _ hx, hbx, hres⟩

theorem nearestHigh_spec (keys : List Nat) (bs h : Nat)
    (hh : nearestHigh keys bs = some h) : h ∈ keys ∧ bs < h := by
  rcases nhStep_foldl_spec keys bs none with hr | hr
  · rw [nearestHigh] at hh
    rw [hr] at hh
    exact absurd hh (by simp)
  · rcases hr with ⟨x, hx, hbx, hres⟩
    rw [nearestHigh] at hh
    rw [hres] at hh
    obtain rfl : x = h := by simpa using hh
    exact ⟨hx, hbx⟩

theorem walkForward_spec (key iv low target subkey : Nat) (m : List (Nat × Nat))
    (hla : low % 4 = 0) (hta : target % 4 = 0) (hle : low ≤ target)
    (hsk : subkey = subkeyAt key iv (low / 4)) (hm : MapInv key iv m) :
    (walkForward key low target subkey m).1 = subkeyAt key iv (target / 4) ∧
    MapInv key iv (walkForward key low target subkey m).2 := by
  induction low, target, subkey, m using walkForward.induct key with
  | case1 low target subkey m hlt subkey' low' m' ih =>
    rw [walkForward, if_pos hlt]
    have hla' : low' % 4 = 0 := by omega
    have hle' : low' ≤ target := by omega
    have hdiv : low' / 4 = low / 4 + 1 := by omega
    have hsk' : subkey' = subkeyAt key iv (low' / 4) := by
      show MarKeystream.next_subkey subkey key = _
      rw [hsk, hdiv]
      rfl
    have hm' : MapInv key iv m' := by
      show MapInv key iv (if low' % 4096 = 0 then hmInsert m low' subkey' else m)
      split
      · rename_i h4096
        exact MapInv_hmInsert key iv m low' subkey' hm h4096 hsk'
      · exact hm
    exact ih hla' hta hle' hsk' hm'
  | case2 low target subkey m hlt =>
    rw [walkForward, if_neg hlt]
    have : low = target := by omega
    subst this
    exact ⟨hsk, hm⟩

theorem walkBackward_spec (key iv high target subkey : Nat) (m : List (Nat × Nat))
    (hk : key < 2 ^ 32)
    (hha : high % 4 = 0) (hta : target % 4 = 0) (hge : target ≤ high)
    (hsk : subkey = subkeyAt key iv (high / 4)) (hm : MapInv key iv m) :
    (walkBackward key high target subkey m).1 = subkeyAt key iv (target / 4) ∧
    MapInv key iv (walkBackward key high target subkey m).2 := by
  induction high, target, subkey, m using walkBackward.induct key with
  | case1 high target subkey m hlt subkey' high' m' ih =>
    rw [walkBackward, if_pos hlt]
    have hhi4 : 4 ≤ high := by omega
    have hha' : high' % 4 = 0 := by omega
    have hge' : target ≤ high' := by omega
    have hdiv : high / 4 = high' / 4 + 1 := by omega
    have hsk' : subkey' = subkeyAt key iv (high' / 4) := by
      show MarKeystream.prev_subkey subkey key = _
      rw [hsk, hdiv, prev_subkeyAt key iv (high' / 4) hk]
    have hm' : MapInv key iv m' := by
      show MapInv key iv (if high' % 4096 = 0 then hmInsert m high' subkey' else m)
      split
      · rename_i h4096
        exact MapInv_hmInsert key iv m high' subkey' hm h4096 hsk'
      · exact hm
    exact ih hha' hta hge' hsk' hm'
  | case2 high target subkey m hlt =>
    rw [walkBackward, if_neg hlt]
    have : high = target := by omega
    subst this
    exact ⟨hsk, hm⟩

theorem hmGet_value (key iv : Nat) (m : List (Nat × Nat)) (hm : MapInv key iv m)
    (k v : Nat) (h : hmGet m k = some v) :
    v = subkeyAt key iv (k / 4) ∧ k % 4096 = 0 := by
  have hmem := hmGet_mem m k v h
  have := hm.2 _ hmem
  exact ⟨this.2, this.1⟩

theorem hmGet_of_mem_keys (key iv : Nat) (m : List (Nat × Nat)) (hm : MapInv key iv m)
    (k : Nat) (hmem : k ∈ m.map Prod.fst) :
    hmGet m k = some (subkeyAt key iv (k / 4)) ∧ k % 4096 = 0 := by
  have hs := hmGet_isSome_of_mem_keys m k hmem
  rcases Option.isSome_iff_exists.mp hs with ⟨v, hv⟩
  have := hmGet_value key iv m hm k v hv
  rw [hv, this.1]
  exact ⟨rfl, this.2⟩

/-- Under the checkpoint-map invariant, `get_keystream pos` returns a
fresh iterator at the true subkey of the block containing `pos`, and the
invariant is preserved. -/
theorem get_keystream_spec (key iv : Nat) (hk : key < 2 ^ 32) (ks : MarKeystream)
    (pos : Nat) (h : CheckpointInv key iv ks) :
    (ks.get_keystream pos).1 =
      { key := key, subkey := subkeyAt key iv (pos / 4), previous_subkey := none } ∧
    CheckpointInv key iv (ks.get_keystream pos).2 := by
  obtain ⟨hkey, hm⟩ := h
  have hbsa : (pos - pos % 4) % 4 = 0 := by omega
  have hbsdiv : (pos - pos % 4) / 4 = pos / 4 := by omega
  simp only [MarKeystream.get_keystream]
  cases hget : hmGet ks.subkeys (pos - pos % 4) with
  | some v =>
    have hv := (hmGet_value key iv ks.subkeys hm _ _ hget).1
    simp only [hget]
    rw [hv, hbsdiv, hkey]
    exact ⟨rfl, hkey, hm⟩
  | none =>
    have hbs4 : 4 ≤ pos - pos % 4 := by
      by_contra hlt
      have : pos - pos % 4 = 0 := by omega
      rw [this, hm.1] at hget
      exact absurd hget (by simp)
    simp only [hget]
    cases hget4 : hmGet ks.subkeys (pos - pos % 4 - 4) with
    | some prev =>
      have hv := (hmGet_value key iv ks.subkeys hm _ _ hget4).1
      have hdiv : (pos - pos % 4) / 4 = (pos - pos % 4 - 4) / 4 + 1 := by omega
      simp only [hget4]
      constructor
      · rw [hv, hkey]
        have : MarKeystream.next_subkey (subkeyAt key iv ((pos - pos % 4 - 4) / 4)) key
            = subkeyAt key iv ((pos - pos % 4 - 4) / 4 + 1) := rfl
        rw [this, ← hdiv, hbsdiv]
      · exact ⟨hkey, hm⟩
    | none =>
      simp only [hget4]
      have h0mem : (0 : Nat) ∈ ks.subkeys.map Prod.fst := by
        apply mem_keys_of_hmGet
        rw [hm.1]
        simp
      have hlowP : ∀ lw : Nat, lw = nearestLow (ks.subkeys.map Prod.fst) (pos - pos % 4) →
          hmGet ks.subkeys lw = some (subkeyAt key iv (lw / 4)) ∧ lw % 4 = 0 ∧
          lw ≤ pos - pos % 4 := by
        intro lw hlw
        have hle : lw ≤ pos - pos % 4 := hlw ▸ nearestLow_le _ _
        rcases hlw ▸ nearestLow_mem (ks.subkeys.map Prod.fst) (pos - pos % 4) with h0 | hmem
        · rw [h0]
          exact ⟨by simpa using hm.1, by omega, Nat.zero_le _⟩
        · have := hmGet_of_mem_keys key iv ks.subkeys hm lw hmem
          exact ⟨this.1, by omega, hle⟩
      obtain ⟨hlowGet, hlowA, hlowLe⟩ := hlowP _ rfl
      rw [hkey]
      split
      · -- forward walk from the nearest low checkpoint
        have hw := walkForward_spec key iv
          (nearestLow (ks.subkeys.map Prod.fst) (pos - pos % 4)) (pos - pos % 4)
          ((hmGet ks.subkeys (nearestLow (ks.subkeys.map Prod.fst) (pos - pos % 4))).getD 0)
          ks.subkeys hlowA hbsa hlowLe (by rw [hlowGet]; rfl) hm
        refine ⟨?_, rfl, hw.2⟩
        rw [hw.1, hbsdiv]
      · -- backward walk from the nearest high checkpoint
        rename_i hcond
        have hhi : ∃ hv, nearestHigh (ks.subkeys.map Prod.fst) (pos - pos % 4) = some hv := by
          rcases hh : nearestHigh (ks.subkeys.map Prod.fst) (pos - pos % 4) with _ | hv
          · rw [hh] at hcond
            simp at hcond
          · exact ⟨hv, rfl⟩
        rcases hhi with ⟨hv, hh⟩
        have hhspec := nearestHigh_spec _ _ _ hh
        have hhget := hmGet_of_mem_keys key iv ks.subkeys hm hv hhspec.1
        have hha : hv % 4 = 0 := by
          have := hhget.2
          omega
        rw [hh]
        simp only [Option.getD_some]
        have hw := walkBackward_spec key iv hv (pos - pos % 4)
          ((hmGet ks.subkeys hv).getD 0)
          ks.subkeys hk hha hbsa (le_of_lt hhspec.2)
          (by rw [hhget.1]; rfl) hm
        refine ⟨?_, rfl, hw.2⟩
        rw [hw.1, hbsdiv]

/-- C10: in `get_keystream`, whenever the direct lookup at `block_start`
fails the subtraction `block_start - 4` cannot underflow (`block_start ≥ 4`),
and the `unwrap()`s on the nearest-checkpoint lookups cannot panic: as the
key `0` is inserted at construction and keys are never removed, the map
always contains the key `0`, the nearest checkpoint at or below
`block_start` always exists, and a nearest high checkpoint, when reported,
is a genuine key of the map. -/
theorem get_keystream_no_panic (ks : MarKeystream) (pos : Nat)
    (hz : (hmGet ks.subkeys 0).isSome) :
    (hmGet ks.subkeys (pos - pos % 4) = none → 4 ≤ pos - pos % 4) ∧
    (hmGet ks.subkeys
      (nearestLow (ks.subkeys.map Prod.fst) (pos - pos % 4))).isSome ∧
    (hmGet ks.subkeys
      ((nearestHigh (ks.subkeys.map Prod.fst) (pos - pos % 4)).getD 0)).isSome := by
  refine ⟨?_, ?_, ?_⟩
  · intro hnone
    rcases Nat.lt_or_ge (pos - pos % 4) 4 with hlt | hge
    · have h0 : pos - pos % 4 = 0 := by omega
      rw [h0] at hnone
      rw [hnone] at hz
      exact absurd hz (by simp)
    · exact hge
  · rcases nearestLow_mem (ks.subkeys.map Prod.fst) (pos - pos % 4) with h0 | hmem
    · rw [h0]
      exact hz
    · exact hmGet_isSome_of_mem_keys _ _ hmem
  · rcases hh : nearestHigh (ks.subkeys.map Prod.fst) (pos - pos % 4) with _ | hv
    · simpa using hz
    · have := (nearestHigh_spec _ _ _ hh).1
      simpa using hmGet_isSome_of_mem_keys _ _ this

/-- Witness for the `get_keystream` safety theorem at a concrete map. -/
theorem get_keystream_no_panic_witness :
    (hmGet (MarKeystream.new 1 2).subkeys (7 - 7 % 4) = none → 4 ≤ 7 - 7 % 4) ∧
    (hmGet (MarKeystream.new 1 2).subkeys
      (nearestLow ((MarKeystream.new 1 2).subkeys.map Prod.fst) (7 - 7 % 4))).isSome ∧
    (hmGet (MarKeystream.new 1 2).subkeys
      ((nearestHigh ((MarKeystream.new 1 2).subkeys.map Prod.fst)
        (7 - 7 % 4)).getD 0)).isSome :=
  get_keystream_no_panic (MarKeystream.new 1 2) 7 (by decide)

theorem cryptRef_nil (key iv size j : Nat) : cryptRef key iv size j [] = [] := rfl

theorem cryptRef_cons (key iv size j d : Nat) (ds : List Nat) :
    cryptRef key iv size j (d :: ds) =
      streamByte key iv size j d :: cryptRef key iv size (j + 1) ds := rfl

theorem cryptRef_length (key iv size j : Nat) (l : List Nat) :
    (cryptRef key iv size j l).length = l.length := by
  induction l generalizing j with
  | nil => rfl
  | cons d ds ih => simp [cryptRef_cons, ih]

theorem cryptRef_append (key iv size j : Nat) (a b : List Nat) :
    cryptRef key iv size j (a ++ b) =
      cryptRef key iv size j a ++ cryptRef key iv size (j + a.length) b := by
  induction a generalizing j with
  | nil => simp [cryptRef_nil]
  | cons d ds ih =>
    rw [List.cons_append, cryptRef_cons, cryptRef_cons, ih (j + 1), List.cons_append]
    have h2 : j + 1 + ds.length = j + (d :: ds).length := by
      rw [List.length_cons]
      omega
    rw [h2]

theorem cryptRef_past_tail (key iv size j : Nat) (l : List Nat)
    (h : 4 * (size / 4) < j) : cryptRef key iv size j l = l := by
  induction l generalizing j with
  | nil => rfl
  | cons d ds ih =>
    rw [cryptRef_cons, streamByte, if_neg (by omega), if_neg (by omega),
      ih (j + 1) (by omega)]

theorem leBytes_eq (x : Nat) :
    leBytes x = [leByte x 0, leByte x 1, leByte x 2, leByte x 3] := by
  simp [leBytes, leByte]

theorem leBytes_drop_cons (x j : Nat) (hj : j < 4) :
    (leBytes x).drop j = leByte x j :: (leBytes x).drop (j + 1) := by
  rw [leBytes_eq]
  interval_cases j <;> simp

theorem foldl_xor_shift (l : List Nat) (a b : Nat) :
    l.foldl (fun x k => x ^^^ k) (a ^^^ b) = a ^^^ l.foldl (fun x k => x ^^^ k) b := by
  induction l generalizing b with
  | nil => rfl
  | cons k l ih =>
    simp only [List.foldl]
    rw [Nat.xor_assoc, ih]

theorem foldl_xor_init (l : List Nat) (d : Nat) :
    l.foldl (fun x k => x ^^^ k) d = d ^^^ l.foldl (fun x k => x ^^^ k) 0 := by
  have : d = d ^^^ 0 := by simp
  conv_lhs => rw [this]
  exact foldl_xor_shift l d 0

theorem zipWith_take_len (f : Nat → Nat → Nat) (l1 l2 : List Nat) :
    List.zipWith f l1 l2 = List.zipWith f l1 (l2.take l1.length) := by
  induction l1 generalizing l2 with
  | nil => simp
  | cons a l1 ih =>
    cases l2 with
    | nil => simp
    | cons b l2 =>
      rw [List.zipWith_cons_cons, List.length_cons, List.take_succ_cons,
        List.zipWith_cons_cons, ih]

/-- XOR-ing a run of bytes inside one fully covered keystream block
produces exactly the reference stream bytes. -/
theorem zip_block (key iv size pos : Nat) (data : List Nat)
    (hlen : pos % 4 + data.length ≤ 4) (hend : 4 * (pos / 4) + 4 ≤ size) :
    List.zipWith (fun k x => x ^^^ k)
      ((leBytes (subkeyAt key iv (pos / 4))).drop (pos % 4)) data
    = cryptRef key iv size pos data := by
  induction data generalizing pos with
  | nil => simp [cryptRef_nil]
  | cons d ds ih =>
    rw [leBytes_drop_cons _ _ (by omega), List.zipWith_cons_cons, cryptRef_cons]
    have hj : streamByte key iv size pos d = d ^^^ ksByte key iv pos := by
      rw [streamByte, if_pos (by omega)]
    rw [hj]
    have hhead : ksByte key iv pos = leByte (subkeyAt key iv (pos / 4)) (pos % 4) := rfl
    rw [hhead]
    congr 1
    by_cases h3 : pos % 4 = 3
    · have hds : ds = [] := by
        rw [List.length_cons] at hlen
        cases ds with
        | nil => rfl
        | cons _ _ => simp at hlen; omega
      subst hds
      simp [cryptRef_nil]
    · cases hds : ds with
      | nil => simp [cryptRef_nil]
      | cons d2 ds2 =>
        rw [← hds]
        have h1 : (pos + 1) % 4 = pos % 4 + 1 := by omega
        have h2 : (pos + 1) / 4 = pos / 4 := by omega
        have := ih (pos + 1)
          (by rw [h1]; rw [List.length_cons] at hlen; omega)
          (by rw [h2]; exact hend)
        rw [h1, h2] at this
        exact this

theorem CheckpointInv_add_checkpoint (key iv : Nat) (ks : MarKeystream) (pos v : Nat)
    (h : CheckpointInv key iv ks) (hp : pos % 4096 = 0)
    (hv : v = subkeyAt key iv (pos / 4)) :
    CheckpointInv key iv (ks.add_checkpoint pos v) := by
  rw [MarKeystream.add_checkpoint]
  split
  · exact h
  · exact ⟨h.1, MapInv_cons key iv ks.subkeys pos v h.2 hp hv⟩

theorem cryptLoop_cons_tail (it : MarKeystreamIterator) (ks : MarKeystream)
    (pos size d : Nat) (ds : List Nat) (h : pos % 4 = 0 ∧ size < pos + 4) :
    cryptLoop it ks pos size (d :: ds) =
      (it.next.2, ks, size,
       (((leBytes it.subkey).take (size - pos)).foldl (fun a k => a ^^^ k) d) :: ds) := by
  rw [cryptLoop]
  simp only [if_pos h]
  rfl

theorem cryptLoop_cons_go (it : MarKeystreamIterator) (ks : MarKeystream)
    (pos size d : Nat) (ds : List Nat) (h : ¬(pos % 4 = 0 ∧ size < pos + 4)) :
    cryptLoop it ks pos size (d :: ds) =
      (let ks' := if pos % 4096 = 0 then
          ks.add_checkpoint pos (word_of_le (leBytes it.subkey)) else ks
       let ab := (leBytes it.subkey).drop (pos % 4)
       let n := min ab.length (d :: ds).length
       let out := List.zipWith (fun k x => x ^^^ k) ab (d :: ds)
       let rest := (d :: ds).drop n
       if rest.isEmpty then (it.next.2, ks', pos + n, out)
       else
         let r := cryptLoop it.next.2 ks' (pos + n) size rest
         (r.1, r.2.1, r.2.2.1, out ++ r.2.2.2)) := by
  rw [cryptLoop]
  simp only [if_neg h]
  rfl

/-- Core correctness of `cryptLoop`: starting at a position whose block
is correctly seeded, with a window lying inside the file and not starting
strictly inside the final partial block, the loop produces the reference
stream output, lands on the expected position, preserves the
checkpoint-map invariant, and leaves the iterator coherent with the new
position. -/
theorem cryptLoop_spec (key iv : Nat) (hk : key < 2 ^ 32)
    (it : MarKeystreamIterator) (ks : MarKeystream) (pos size : Nat)
    (data : List Nat) :
    it.key = key → it.subkey = subkeyAt key iv (pos / 4) →
    CheckpointInv key iv ks →
    pos < size → pos ≤ 4 * (size / 4) →
    pos + data.length ≤ size → data ≠ [] →
    (cryptLoop it ks pos size data).2.2.2 = cryptRef key iv size pos data ∧
    (cryptLoop it ks pos size data).2.2.1 =
      (if 4 * (size / 4) < pos + data.length then size else pos + data.length) ∧
    CheckpointInv key iv (cryptLoop it ks pos size data).2.1 ∧
    (cryptLoop it ks pos size data).1.key = key ∧
    ((cryptLoop it ks pos size data).2.2.1 % 4 = 0 →
      (cryptLoop it ks pos size data).2.2.1 < size →
      (cryptLoop it ks pos size data).1.subkey =
        subkeyAt key iv ((cryptLoop it ks pos size data).2.2.1 / 4)) ∧
    ((cryptLoop it ks pos size data).2.2.1 % 4 ≠ 0 →
      (cryptLoop it ks pos size data).1.subkey =
        subkeyAt key iv ((cryptLoop it ks pos size data).2.2.1 / 4 + 1) ∧
      (cryptLoop it ks pos size data).1.previous_subkey =
        some (subkeyAt key iv ((cryptLoop it ks pos size data).2.2.1 / 4))) := by
  induction it, ks, pos, size, data using cryptLoop.induct with
  | case1 it ks pos size =>
    intro _ _ _ _ _ _ hne
    exact absurd rfl hne
  | case2 it ks pos size d ds hcase =>
    intro hitk hsub hks hlt hpt hwin hne
    obtain ⟨hal, hshort⟩ := hcase
    have hteq : pos = 4 * (size / 4) := by omega
    have hrnz : size % 4 ≠ 0 := by omega
    have hposdiv : pos / 4 = size / 4 := by omega
    rw [cryptLoop_cons_tail it ks pos size d ds ⟨hal, hshort⟩]
    dsimp only
    refine ⟨?_, ?_, hks, hitk, ?_, ?_⟩
    · rw [cryptRef_cons]
      have htail : streamByte key iv size pos d =
          d ^^^ tailKs (subkeyAt key iv (size / 4)) (size % 4) := by
        rw [streamByte, if_neg (by omega), if_pos ⟨by omega, hrnz⟩]
      rw [htail, cryptRef_past_tail key iv size (pos + 1) ds (by omega)]
      have hsp : size - pos = size % 4 := by omega
      rw [hsub, hposdiv, hsp, foldl_xor_init]
      rfl
    · rw [if_pos (by simp only [List.length_cons]; omega)]
    · intro h4 hlt'
      exact absurd hlt' (by omega)
    · intro h4
      constructor
      · show MarKeystream.next_subkey it.subkey it.key = _
        rw [hitk, hsub, hposdiv]
        rfl
      · show some it.subkey = _
        rw [hsub, hposdiv]
  | case3 it ks pos size d ds nx key_block hcase ab n rest hrest =>
    intro hitk hsub hks hlt hpt hwin hne
    unfold_let rest n ab key_block nx at hrest
    rw [show it.next.1 = leBytes it.subkey from rfl] at hrest
    have hdl : (d :: ds).length = ds.length + 1 := List.length_cons d ds
    rw [cryptLoop_cons_go it ks pos size d ds hcase]
    dsimp only
    rw [if_pos hrest]
    dsimp only
    have hab : ((leBytes it.subkey).drop (pos % 4)).length = 4 - pos % 4 := by
      rw [List.length_drop, leBytes_length]
    have hrest' : (d :: ds).drop
        (min ((leBytes it.subkey).drop (pos % 4)).length (d :: ds).length) = [] := by
      have := hrest
      simpa [List.isEmpty_iff] using this
    have hlenle : (d :: ds).length ≤ 4 - pos % 4 := by
      by_contra hgt
      have hmin : min ((leBytes it.subkey).drop (pos % 4)).length (d :: ds).length
          = 4 - pos % 4 := by
        rw [hab]
        omega
      rw [hmin] at hrest'
      have := List.length_drop (4 - pos % 4) (d :: ds)
      rw [hrest'] at this
      simp at this
      omega
    have hmin : min ((leBytes it.subkey).drop (pos % 4)).length (d :: ds).length
        = (d :: ds).length := by
      rw [hab]
      omega
    have hend : 4 * (pos / 4) + 4 ≤ size := by omega
    rw [hmin]
    refine ⟨?_, ?_, ?_, hitk, ?_, ?_⟩
    · rw [hsub]
      exact zip_block key iv size pos (d :: ds)
        (by omega) hend
    · rw [if_neg (show ¬(4 * (size / 4) < pos + (d :: ds).length) by omega)]
    · split
      · rename_i h4096
        refine CheckpointInv_add_checkpoint key iv ks pos _ hks h4096 ?_
        rw [word_of_le_leBytes it.subkey (hsub ▸ subkeyAt_lt key iv (pos / 4)), hsub]
      · exact hks
    · intro h4 hlt'
      have hn : pos % 4 + (d :: ds).length = 4 := by omega
      show MarKeystream.next_subkey it.subkey it.key = _
      have hdiv : (pos + (d :: ds).length) / 4 = pos / 4 + 1 := by omega
      rw [hitk, hsub, hdiv]
      rfl
    · intro h4
      have hlt4 : pos % 4 + (d :: ds).length < 4 := by
        rcases Nat.lt_or_ge (pos % 4 + (d :: ds).length) 4 with h | h
        · exact h
        · exfalso
          have : pos % 4 + (d :: ds).length = 4 := by omega
          omega
      have hdiv : (pos + (d :: ds).length) / 4 = pos / 4 := by omega
      constructor
      · show MarKeystream.next_subkey it.subkey it.key = _
        rw [hitk, hsub, hdiv]
        rfl
      · show some it.subkey = _
        rw [hsub, hdiv]
  | case4 it ks pos size d ds nx key_block it' hcase ks' ab n rest hrest ih =>
    intro hitk hsub hks hlt hpt hwin hne
    unfold_let rest n ab ks' it' key_block nx at hrest ih
    rw [show it.next.1 = leBytes it.subkey from rfl] at hrest ih
    simp only [dite_eq_ite] at ih
    have hdl : (d :: ds).length = ds.length + 1 := List.length_cons d ds
    rw [cryptLoop_cons_go it ks pos size d ds hcase]
    dsimp only
    rw [if_neg hrest]
    dsimp only
    have hab : ((leBytes it.subkey).drop (pos % 4)).length = 4 - pos % 4 := by
      rw [List.length_drop, leBytes_length]
    have hrne : (d :: ds).drop
        (min ((leBytes it.subkey).drop (pos % 4)).length (d :: ds).length) ≠ [] := by
      intro hnil
      apply hrest
      rw [hnil]
      rfl
    have hlengt : 4 - pos % 4 < (d :: ds).length := by
      by_contra hle
      have hmin : min ((leBytes it.subkey).drop (pos % 4)).length (d :: ds).length
          = (d :: ds).length := by
        rw [hab]
        omega
      rw [hmin, List.drop_length] at hrne
      exact hrne rfl
    have hmin : min ((leBytes it.subkey).drop (pos % 4)).length (d :: ds).length
        = 4 - pos % 4 := by
      rw [hab]
      omega
    have hend : 4 * (pos / 4) + 4 ≤ size := by omega
    have hposn : pos + (4 - pos % 4) = 4 * (pos / 4) + 4 := by omega
    have hdivn : (pos + (4 - pos % 4)) / 4 = pos / 4 + 1 := by omega
    have hrl : ((d :: ds).drop (4 - pos % 4)).length =
        (d :: ds).length - (4 - pos % 4) := List.length_drop _ _
    have hit'k : it.next.2.key = key := hitk
    have hit's : it.next.2.subkey = subkeyAt key iv ((pos + (4 - pos % 4)) / 4) := by
      show MarKeystream.next_subkey it.subkey it.key = _
      rw [hitk, hsub, hdivn]
      rfl
    have hks' : CheckpointInv key iv
        (if pos % 4096 = 0 then
          ks.add_checkpoint pos (word_of_le (leBytes it.subkey)) else ks) := by
      split
      · rename_i h4096
        refine CheckpointInv_add_checkpoint key iv ks pos _ hks h4096 ?_
        rw [word_of_le_leBytes it.subkey (hsub ▸ subkeyAt_lt key iv (pos / 4)), hsub]
      · exact hks
    rw [hmin] at hrne ⊢
    rw [hmin] at ih
    have hlt' : pos + (4 - pos % 4) < size := by
      have hp := List.length_pos.mpr hrne
      rw [hrl] at hp
      omega
    have hihr := ih hit'k hit's hks' hlt'
      (by omega)
      (by rw [hrl]; omega)
      hrne
    obtain ⟨ih1, ih2, ih3, ih4, ih5, ih6⟩ := hihr
    refine ⟨?_, ?_, ih3, ih4, ?_, ?_⟩
    · rw [ih1]
      have hsplit : (d :: ds) =
          (d :: ds).take (4 - pos % 4) ++ (d :: ds).drop (4 - pos % 4) :=
        (List.take_append_drop _ _).symm
      conv_rhs => rw [hsplit]
      rw [cryptRef_append]
      have htl : ((d :: ds).take (4 - pos % 4)).length = 4 - pos % 4 := by
        rw [List.length_take]
        omega
      rw [htl]
      congr 1
      rw [zipWith_take_len, hab, hsub]
      exact zip_block key iv size pos ((d :: ds).take (4 - pos % 4))
        (by rw [htl]; omega) hend
    · rw [ih2, hrl]
      have harith : pos + (4 - pos % 4) + ((d :: ds).length - (4 - pos % 4)) =
          pos + (d :: ds).length := by omega
      rw [harith]
    · exact ih5
    · exact ih6

theorem CipherInv_new (key iv size : Nat) :
    CipherInv key iv (MarCipher.new key iv size) := by
  refine ⟨⟨rfl, rfl, ?_⟩, Nat.zero_le _, trivial⟩
  intro e he
  rcases List.mem_singleton.mp he with rfl
  exact ⟨rfl, by norm_num [subkeyAt]⟩

theorem crypt_early (c : MarCipher) (data : List Nat)
    (h : c.pos = c.size ∨ data.isEmpty) : c.crypt data = (c, data) := by
  rw [MarCipher.crypt, if_pos h]

theorem crypt_main (c : MarCipher) (data : List Nat)
    (h : ¬(c.pos = c.size ∨ data.isEmpty = true)) :
    c.crypt data =
      (let itks : MarKeystreamIterator × MarKeystream :=
        match c.current_iterator with
        | some it => (if c.pos % 4 ≠ 0 then it.rewind else it, c.keystream)
        | none => c.keystream.get_keystream c.pos
       let r := cryptLoop itks.1 itks.2 c.pos c.size data
       ({ keystream := r.2.1, current_iterator := some r.1, pos := r.2.2.1,
          size := c.size }, r.2.2.2)) := by
  rw [MarCipher.crypt, if_neg h]

/-- Functional specification of `MarCipher.crypt` on an invariant state
whose position corresponds to logical stream offset `q` (the position
saturates to `size` once the tail quirk has fired): the output is the
reference stream slice at `q`, and the invariant and position tracking
are preserved. -/
theorem crypt_spec (key iv : Nat) (hk : key < 2 ^ 32) (size q : Nat)
    (c : MarCipher) (data : List Nat)
    (hInv : CipherInv key iv c) (hsz : c.size = size)
    (hq : c.pos = if 4 * (size / 4) < q then size else q)
    (hwin : q + data.length ≤ size) :
    (c.crypt data).2 = cryptRef key iv size q data ∧
    CipherInv key iv (c.crypt data).1 ∧
    (c.crypt data).1.size = size ∧
    (c.crypt data).1.pos =
      (if 4 * (size / 4) < q + data.length then size else q + data.length) := by
  obtain ⟨hks, hle, hcoh⟩ := hInv
  have hle' : c.pos ≤ size := hsz ▸ hle
  by_cases hearly : c.pos = c.size ∨ data.isEmpty
  · rw [crypt_early c data hearly]
    by_cases hde : data.isEmpty
    · have hdata : data = [] := by simpa [List.isEmpty_iff] using hde
      subst hdata
      refine ⟨(cryptRef_nil key iv size q).symm, ⟨hks, hle, hcoh⟩, hsz, ?_⟩
      simpa using hq
    · have hps : c.pos = c.size := by tauto
      by_cases httq : 4 * (size / 4) < q
      · refine ⟨(cryptRef_past_tail key iv size q data (by omega)).symm,
          ⟨hks, hle, hcoh⟩, hsz, ?_⟩
        rw [if_pos (by omega), hps, hsz]
      · rw [if_neg httq] at hq
        have hqs : q = size := by omega
        have hdata : data = [] := by
          have hl : data.length = 0 := by omega
          exact List.length_eq_zero.mp hl
        subst hdata
        exact absurd (by simp : ([] : List Nat).isEmpty = true) (by simpa using hde)
  · have hpne : c.pos ≠ c.size := by tauto
    have hdne : data ≠ [] := by
      intro hnil
      exact hearly (Or.inr (by simp [hnil]))
    have hnlt : ¬ 4 * (size / 4) < q := by
      intro hlt'
      rw [if_pos hlt'] at hq
      exact hpne (hq.trans hsz.symm)
    rw [if_neg hnlt] at hq
    have hplt : c.pos < size := by
      rcases Nat.lt_or_ge c.pos size with h | h
      · exact h
      · exact absurd (by omega : c.pos = c.size) hpne
    have hqt : q ≤ 4 * (size / 4) := by omega
    have hqlt : q < size := hq ▸ hplt
    rw [crypt_main c data hearly]
    dsimp only
    rcases hit : c.current_iterator with _ | it
    · -- no current iterator: the keystream is asked for one
      simp only [hit]
      have hg := get_keystream_spec key iv hk c.keystream c.pos hks
      have hcl := cryptLoop_spec key iv hk
        (c.keystream.get_keystream c.pos).1 (c.keystream.get_keystream c.pos).2
        c.pos size data
        (by rw [hg.1]) (by rw [hg.1, hq]) hg.2 (hq ▸ hqlt) (hq ▸ hqt)
        (by rw [hq]; exact hwin) hdne
      rw [hq] at hcl
      obtain ⟨ih1, ih2, ih3, ih4, ih5, ih6⟩ := hcl
      rw [hsz, hq]
      refine ⟨ih1, ⟨ih3, ?_, ?_⟩, rfl, ih2⟩
      · dsimp only
        rw [ih2]
        split <;> omega
      · show IterCoh key iv _ size (some _)
        exact ⟨ih4, ih5, ih6⟩
    · -- a current iterator exists: possibly rewind it
      simp only [hit]
      rw [hit] at hcoh
      obtain ⟨hik, hc1, hc2⟩ := hcoh
      have hiter : (if c.pos % 4 ≠ 0 then it.rewind else it).key = key ∧
          (if c.pos % 4 ≠ 0 then it.rewind else it).subkey =
            subkeyAt key iv (c.pos / 4) := by
        by_cases h4 : c.pos % 4 = 0
        · rw [if_neg (by simpa using h4)]
          exact ⟨hik, hc1 h4 (hsz ▸ hplt)⟩
        · rw [if_pos h4]
          obtain ⟨hsk, hpk⟩ := hc2 h4
          rw [MarKeystreamIterator.rewind, hpk]
          exact ⟨hik, rfl⟩
      have hcl := cryptLoop_spec key iv hk
        (if c.pos % 4 ≠ 0 then it.rewind else it) c.keystream
        c.pos size data
        hiter.1 (by rw [hiter.2, hq]) hks (hq ▸ hqlt) (hq ▸ hqt)
        (by rw [hq]; exact hwin) hdne
      rw [hq] at hcl
      obtain ⟨ih1, ih2, ih3, ih4, ih5, ih6⟩ := hcl
      rw [hsz, hq]
      refine ⟨ih1, ⟨ih3, ?_, ?_⟩, rfl, ih2⟩
      · dsimp only
        rw [ih2]
        split <;> omega
      · show IterCoh key iv _ size (some _)
        exact ⟨ih4, ih5, ih6⟩

theorem range_fold_tailKs (s r a : Nat) (hr : r ≤ 4) :
    (List.range r).foldl (fun x j => x ^^^ (s >>> (8 * j)) % 256) a = a ^^^ tailKs s r := by
  have hle : ∀ j, (s >>> (8 * j)) % 256 = leByte s j := fun j => rfl
  interval_cases r <;>
    simp [tailKs, leBytes_eq, leByte, List.range_succ, Nat.xor_assoc]

theorem ksByte_block (key iv m j : Nat) (hj : j < 4) :
    ksByte key iv (4 * m + j) = (subkeyAt key iv m >>> (8 * j)) % 256 := by
  rw [ksByte]
  have e1 : (4 * m + j) / 4 = m := by omega
  have e2 : (4 * m + j) % 4 = j := by omega
  rw [e1, e2, leByte]

/-- One full block of the reference stream, spelled out byte by byte. -/
theorem cryptRef_block (key iv size m a b c d : Nat) (rest : List Nat)
    (hfit : 4 * m + 4 ≤ size) :
    cryptRef key iv size (4 * m) (a :: b :: c :: d :: rest) =
      (a ^^^ subkeyAt key iv m % 256) ::
      (b ^^^ (subkeyAt key iv m >>> 8) % 256) ::
      (c ^^^ (subkeyAt key iv m >>> 16) % 256) ::
      (d ^^^ (subkeyAt key iv m >>> 24) % 256) ::
      cryptRef key iv size (4 * m + 4) rest := by
  rw [cryptRef_cons, cryptRef_cons, cryptRef_cons, cryptRef_cons]
  have hb : ∀ j x, j < 4 → streamByte key iv size (4 * m + j) x =
      x ^^^ (subkeyAt key iv m >>> (8 * j)) % 256 := by
    intro j x hj
    rw [streamByte, if_pos (by omega), ksByte_block key iv m j hj]
  have h0 := hb 0 a (by omega)
  rw [show 4 * m + 0 = 4 * m from by omega] at h0
  rw [h0, hb 1 b (by omega), hb 2 c (by omega), hb 3 d (by omega)]
  norm_num [Nat.shiftRight_zero]

theorem refgo_spec (key iv : Nat) (k : Nat) (data : List Nat) (m : Nat)
    (hkk : rotl5 ((key + k) % 2 ^ 32) = subkeyAt key iv m) :
    reference_crypt_go key k data = cryptRef key iv (4 * m + data.length) (4 * m) data := by
  induction k, data using reference_crypt_go.induct key generalizing m with
  | case1 k => simp [reference_crypt_go, cryptRef_nil]
  | case2 k a b c d rest k2 kn ih =>
    unfold_let kn k2 at ih
    rw [reference_crypt_go.eq_2]
    rw [hkk] at ih ⊢
    have hlen : (a :: b :: c :: d :: rest).length = rest.length + 4 := by
      simp
    rw [hlen]
    have hihr := ih (m + 1) rfl
    rw [hihr]
    have hsz : 4 * m + (rest.length + 4) = 4 * (m + 1) + rest.length := by omega
    rw [hsz, cryptRef_block key iv (4 * (m + 1) + rest.length) m a b c d rest (by omega)]
    rw [show 4 * m + 4 = 4 * (m + 1) from by omega]
  | case3 k a rest hno =>
    rw [reference_crypt_go.eq_3 key k a rest hno]
    rw [hkk]
    have hr : (a :: rest).length ≤ 3 := by
      rcases rest with _ | ⟨x, _ | ⟨y, _ | ⟨z, zs⟩⟩⟩
      · simp
      · simp
      · simp
      · exact absurd (hno x y z zs rfl) not_false
    rw [range_fold_tailKs (subkeyAt key iv m) (a :: rest).length a (by omega)]
    have hlc : (a :: rest).length = rest.length + 1 := List.length_cons a rest
    have hsz4 : (4 * m + (a :: rest).length) / 4 = m := by omega
    have hsz4m : (4 * m + (a :: rest).length) % 4 = (a :: rest).length := by omega
    rw [cryptRef_cons, streamByte, if_neg (by omega),
      if_pos ⟨by omega, by omega⟩]
    rw [hsz4, hsz4m, cryptRef_past_tail key iv _ (4 * m + 1) rest (by omega)]

/-- The test-module reference implementation computes exactly the
reference stream transform of the whole buffer. -/
theorem reference_crypt_eq (key iv : Nat) (data : List Nat) :
    reference_crypt key iv data = cryptRef key iv data.length 0 data := by
  have h := refgo_spec key iv iv data 0 rfl
  simpa [reference_crypt] using h

theorem cryptRef_getElem (key iv size j : Nat) (l : List Nat) (i : Nat) :
    (cryptRef key iv size j l)[i]? =
      (l[i]?).map (fun d => streamByte key iv size (j + i) d) := by
  induction l generalizing j i with
  | nil => simp [cryptRef_nil]
  | cons d ds ih =>
    cases i with
    | zero => simp [cryptRef_cons]
    | succ i =>
      rw [cryptRef_cons]
      simp only [List.getElem?_cons_succ]
      rw [ih (j + 1) i, show j + 1 + i = j + (i + 1) from by omega]

theorem cryptRef_drop (key iv size j m : Nat) (l : List Nat) :
    (cryptRef key iv size j l).drop m = cryptRef key iv size (j + m) (l.drop m) := by
  induction l generalizing j m with
  | nil => simp [cryptRef_nil]
  | cons d ds ih =>
    cases m with
    | zero => simp
    | succ m =>
      rw [cryptRef_cons, List.drop_succ_cons, List.drop_succ_cons, ih (j + 1) m,
        show j + 1 + m = j + (m + 1) from by omega]

theorem cryptRef_take (key iv size j m : Nat) (l : List Nat) :
    (cryptRef key iv size j l).take m = cryptRef key iv size j (l.take m) := by
  induction l generalizing j m with
  | nil => simp [cryptRef_nil]
  | cons d ds ih =>
    cases m with
    | zero => simp [cryptRef_nil]
    | succ m =>
      rw [cryptRef_cons, List.take_succ_cons, List.take_succ_cons, cryptRef_cons,
        ih (j + 1) m]

/-- C9: for all 32-bit values `s` and `k`,
`prev_subkey(next_subkey(s, k), k) = s`, with wrapping 32-bit
arithmetic, where `next_subkey` rotates `k + s` left by five and
`prev_subkey` rotates right by five then subtracts `k`. -/
theorem mar_prev_next_subkey_inverse (s k : Nat) (hs : s < 2 ^ 32) (hk : k < 2 ^ 32) :
    MarKeystream.prev_subkey (MarKeystream.next_subkey s k) k = s :=
  MarKeystream.prev_next_subkey s k hs hk

/-- Witness for C9 at concrete 32-bit inputs. -/
theorem mar_prev_next_subkey_inverse_witness :
    MarKeystream.prev_subkey (MarKeystream.next_subkey 123456789 987654321) 987654321 =
      123456789 :=
  mar_prev_next_subkey_inverse 123456789 987654321 (by decide) (by decide)

/-- C1: a single `crypt` call over a whole fresh buffer XORs each full
4-byte block `n` with the little-endian bytes of `subkeyₙ`
(`subkey₀ = rotl5(key + iv)`, `subkeyₙ = rotl5(key + subkey_{n-1})`,
wrapping); and when `len % 4 = r ∈ {1,2,3}` only the byte at `len - r`
changes in the tail — it absorbs the XOR of the first `r` bytes of the
next keystream block — while every byte after it passes through
unchanged. -/
theorem mar_crypt_oneshot_blocks_and_tail (key iv : Nat) (data : List Nat)
    (n j i : Nat) (hk : key < 2 ^ 32) (hiv : iv < 2 ^ 32) :
    ((MarCipher.new key iv data.length).crypt data).2.length = data.length ∧
    (4 * n + 4 ≤ data.length → j < 4 →
      ((MarCipher.new key iv data.length).crypt data).2[4 * n + j]? =
        (data[4 * n + j]?).map (fun d => d ^^^ leByte (subkeyAt key iv n) j)) ∧
    (data.length % 4 ≠ 0 →
      (((MarCipher.new key iv data.length).crypt data).2[data.length -
          data.length % 4]? =
        (data[data.length - data.length % 4]?).map
          (fun d => d ^^^ tailKs (subkeyAt key iv (data.length / 4))
            (data.length % 4))) ∧
      (data.length - data.length % 4 < i →
        ((MarCipher.new key iv data.length).crypt data).2[i]? = data[i]?)) := by
  have hout := (crypt_spec key iv hk data.length 0
    (MarCipher.new key iv data.length) data (CipherInv_new key iv data.length)
    rfl (by rw [if_neg (by omega)]; rfl) (by omega)).1
  refine ⟨?_, ?_, ?_⟩
  · rw [hout, cryptRef_length]
  · intro hblk hj
    rw [hout, cryptRef_getElem]
    cases hx : data[4 * n + j]? with
    | none => simp
    | some d =>
      simp only [Option.map_some']
      have hsb : streamByte key iv data.length (0 + (4 * n + j)) d =
          d ^^^ leByte (subkeyAt key iv n) j := by
        rw [Nat.zero_add, streamByte, if_pos (by omega), ksByte_block key iv n j hj]
        rfl
      rw [hsb]
  · intro hr
    constructor
    · rw [hout, cryptRef_getElem]
      cases hx : data[data.length - data.length % 4]? with
      | none => simp
      | some d =>
        simp only [Option.map_some']
        have hsb : streamByte key iv data.length
            (0 + (data.length - data.length % 4)) d =
            d ^^^ tailKs (subkeyAt key iv (data.length / 4)) (data.length % 4) := by
          rw [Nat.zero_add, streamByte, if_neg (by omega), if_pos ⟨by omega, hr⟩]
        rw [hsb]
    · intro hi
      rw [hout, cryptRef_getElem]
      cases hx : data[i]? with
      | none => simp
      | some d =>
        simp only [Option.map_some']
        rw [Nat.zero_add, streamByte, if_neg (by omega), if_neg (by omega)]

/-- Witness for C1 on a concrete 7-byte buffer (`r = 3`). -/
theorem mar_crypt_oneshot_blocks_and_tail_witness :
    ((MarCipher.new 3 5 ([9, 8, 7, 6, 5, 4, 3] : List Nat).length).crypt
        [9, 8, 7, 6, 5, 4, 3]).2.length = ([9, 8, 7, 6, 5, 4, 3] : List Nat).length ∧
    (4 * 1 + 4 ≤ ([9, 8, 7, 6, 5, 4, 3] : List Nat).length → 2 < 4 →
      ((MarCipher.new 3 5 ([9, 8, 7, 6, 5, 4, 3] : List Nat).length).crypt
          [9, 8, 7, 6, 5, 4, 3]).2[4 * 1 + 2]? =
        (([9, 8, 7, 6, 5, 4, 3] : List Nat)[4 * 1 + 2]?).map
          (fun d => d ^^^ leByte (subkeyAt 3 5 1) 2)) ∧
    (([9, 8, 7, 6, 5, 4, 3] : List Nat).length % 4 ≠ 0 →
      (((MarCipher.new 3 5 ([9, 8, 7, 6, 5, 4, 3] : List Nat).length).crypt
          [9, 8, 7, 6, 5, 4, 3]).2[([9, 8, 7, 6, 5, 4, 3] : List Nat).length -
            ([9, 8, 7, 6, 5, 4, 3] : List Nat).length % 4]? =
        (([9, 8, 7, 6, 5, 4, 3] : List Nat)[([9, 8, 7, 6, 5, 4, 3] : List Nat).length -
            ([9, 8, 7, 6, 5, 4, 3] : List Nat).length % 4]?).map
          (fun d => d ^^^ tailKs (subkeyAt 3 5 (([9, 8, 7, 6, 5, 4, 3] : List Nat).length / 4))
            (([9, 8, 7, 6, 5, 4, 3] : List Nat).length % 4))) ∧
      (([9, 8, 7, 6, 5, 4, 3] : List Nat).length -
          ([9, 8, 7, 6, 5, 4, 3] : List Nat).length % 4 < 5 →
        ((MarCipher.new 3 5 ([9, 8, 7, 6, 5, 4, 3] : List Nat).length).crypt
            [9, 8, 7, 6, 5, 4, 3]).2[5]? = ([9, 8, 7, 6, 5, 4, 3] : List Nat)[5]?)) :=
  mar_crypt_oneshot_blocks_and_tail 3 5 [9, 8, 7, 6, 5, 4, 3] 1 2 5
    (by decide) (by decide)

/-- C2 (amended): seeking a fresh cipher to `p` and crypting the window
`[p, p+L)` reproduces the corresponding slice of a full-stream reference
crypt, provided the window does not START strictly inside the final
partial block (`p ≤ 4 * (size / 4)`); starting inside the tail diverges
(see the counterexample). -/
theorem mar_seek_then_crypt_matches_reference (key iv : Nat) (data : List Nat)
    (p L : Nat) (hk : key < 2 ^ 32) (hiv : iv < 2 ^ 32)
    (hwin : p + L ≤ data.length) (hp : p ≤ 4 * (data.length / 4)) :
    (((MarCipher.new key iv data.length).seek (SeekFrom.start p)).2.crypt
        ((data.drop p).take L)).2 =
      ((reference_crypt key iv data).drop p).take L := by
  have hmin : min data.length p = p := by omega
  have hcs := crypt_spec key iv hk data.length p
    ((MarCipher.new key iv data.length).seek (SeekFrom.start p)).2
    ((data.drop p).take L)
    ⟨(CipherInv_new key iv data.length).1, by
      show min data.length p ≤ data.length
      omega, trivial⟩
    rfl
    (by show min data.length p = _; rw [hmin, if_neg (by omega)])
    (by
      rw [List.length_take, List.length_drop]
      omega)
  rw [hcs.1, reference_crypt_eq, cryptRef_drop, cryptRef_take, Nat.zero_add]

/-- Witness for the amended C2 at a concrete seek position. -/
theorem mar_seek_then_crypt_matches_reference_witness :
    (((MarCipher.new 7 9 ([1, 2, 3, 4, 5, 6, 7, 8, 9] : List Nat).length).seek
        (SeekFrom.start 4)).2.crypt
        ((([1, 2, 3, 4, 5, 6, 7, 8, 9] : List Nat).drop 4).take 3)).2 =
      ((reference_crypt 7 9 [1, 2, 3, 4, 5, 6, 7, 8, 9]).drop 4).take 3 :=
  mar_seek_then_crypt_matches_reference 7 9 [1, 2, 3, 4, 5, 6, 7, 8, 9] 4 3
    (by decide) (by decide) (by decide) (by decide)

/-- Counterexample to C2 as frozen: with `key = 0`, `iv = 1`, a six-byte
zero buffer and a seek to `p = 5` (strictly inside the final partial
block), crypting the one-byte window does NOT reproduce the full-stream
reference slice: the cipher XORs the byte with keystream byte 5, while
the reference leaves every tail byte after the first unchanged. -/
theorem mar_seek_inside_tail_cx :
    (((MarCipher.new 0 1 ([0, 0, 0, 0, 0, 0] : List Nat).length).seek
        (SeekFrom.start 5)).2.crypt
        ((([0, 0, 0, 0, 0, 0] : List Nat).drop 5).take 1)).2 ≠
      ((reference_crypt 0 1 [0, 0, 0, 0, 0, 0]).drop 5).take 1 := by
  have hseek : ((MarCipher.new 0 1 ([0, 0, 0, 0, 0, 0] : List Nat).length).seek
      (SeekFrom.start 5)).2 = ⟨⟨0, [(0, 32)]⟩, none, 5, 6⟩ := by decide
  have hwindow : (([0, 0, 0, 0, 0, 0] : List Nat).drop 5).take 1 = [0] := by decide
  have hg1 : ((⟨⟨0, [(0, 32)]⟩, none, 5, 6⟩ : MarCipher).keystream.get_keystream 5).1
      = ⟨0, 1024, none⟩ := by decide
  have hg2 : ((⟨⟨0, [(0, 32)]⟩, none, 5, 6⟩ : MarCipher).keystream.get_keystream 5).2
      = ⟨0, [(0, 32)]⟩ := by decide
  have hL : ((⟨⟨0, [(0, 32)]⟩, none, 5, 6⟩ : MarCipher).crypt [0]).2 = [4] := by
    rw [crypt_main _ _ (by decide)]
    dsimp only
    rw [hg1, hg2, cryptLoop_cons_go _ _ _ _ _ _ (by decide)]
    decide
  rw [hseek, hwindow, hL]
  decide

theorem cryptChunks_spec (key iv : Nat) (hk : key < 2 ^ 32) (size : Nat)
    (chunks : List (List Nat)) :
    ∀ (c : MarCipher) (q : Nat),
    CipherInv key iv c → c.size = size →
    c.pos = (if 4 * (size / 4) < q then size else q) →
    q + chunks.join.length ≤ size →
    (cryptChunks c chunks).2 = cryptRef key iv size q chunks.join := by
  induction chunks with
  | nil =>
    intro c q hInv hsz hq hwin
    simp [cryptChunks, cryptRef_nil]
  | cons ch rest ih =>
    intro c q hInv hsz hq hwin
    have hjl : (ch :: rest).join.length = ch.length + rest.join.length := by
      simp
    have hw1 : q + ch.length ≤ size := by omega
    have hcs := crypt_spec key iv hk size q c ch hInv hsz hq hw1
    have hrec := ih (c.crypt ch).1 (q + ch.length) hcs.2.1 hcs.2.2.1 hcs.2.2.2
      (by omega)
    show (c.crypt ch).2 ++ (cryptChunks (c.crypt ch).1 rest).2 = _
    rw [hcs.1, hrec, show (ch :: rest).join = ch ++ rest.join from by simp,
      cryptRef_append]

/-- C3: crypting a fresh buffer through any partition into consecutive
chunks (in particular byte-by-byte) yields exactly the same output as a
single crypt over the whole buffer on a fresh cipher. -/
theorem mar_crypt_chunked_eq_oneshot (key iv : Nat) (chunks : List (List Nat))
    (hk : key < 2 ^ 32) (hiv : iv < 2 ^ 32) :
    (cryptChunks (MarCipher.new key iv chunks.join.length) chunks).2 =
      ((MarCipher.new key iv chunks.join.length).crypt chunks.join).2 := by
  rw [cryptChunks_spec key iv hk chunks.join.length chunks
    (MarCipher.new key iv chunks.join.length) 0
    (CipherInv_new key iv chunks.join.length) rfl
    (by rw [if_neg (by omega)]; rfl) (by omega)]
  rw [(crypt_spec key iv hk chunks.join.length 0
    (MarCipher.new key iv chunks.join.length) chunks.join
    (CipherInv_new key iv chunks.join.length) rfl
    (by rw [if_neg (by omega)]; rfl) (by omega)).1]

/-- Witness for C3 on a concrete 3-chunk partition. -/
theorem mar_crypt_chunked_eq_oneshot_witness :
    (cryptChunks (MarCipher.new 11 22 ([[1], [2, 3], [4, 5, 6]] : List (List Nat)).join.length)
        [[1], [2, 3], [4, 5, 6]]).2 =
      ((MarCipher.new 11 22 ([[1], [2, 3], [4, 5, 6]] : List (List Nat)).join.length).crypt
        ([[1], [2, 3], [4, 5, 6]] : List (List Nat)).join).2 :=
  mar_crypt_chunked_eq_oneshot 11 22 [[1], [2, 3], [4, 5, 6]] (by decide) (by decide)

theorem cryptLoop_ks_stable (it : MarKeystreamIterator) (ks : MarKeystream)
    (pos size : Nat) (data : List Nat) (h4 : pos % 4 ≠ 0)
    (hlen : data.length ≤ 4 - pos % 4) :
    (cryptLoop it ks pos size data).2.1 = ks := by
  cases data with
  | nil => rw [cryptLoop]
  | cons d ds =>
    rw [cryptLoop_cons_go it ks pos size d ds (fun hc => h4 hc.1)]
    dsimp only
    have hm : min ((leBytes it.subkey).drop (pos % 4)).length (d :: ds).length
        = (d :: ds).length := by
      rw [List.length_drop, leBytes_length]
      omega
    rw [hm, List.drop_length, if_pos (by rfl)]
    dsimp only
    rw [if_neg (by omega)]

/-- C4: the checkpoint map always contains `(0, subkey₀)` and every entry
binds a 0x1000-aligned block offset to the true subkey of that block;
this invariant holds at construction and is preserved by `crypt` (on any
window within the file, as every `KFile` read issues), by `seek`, and by
`get_keystream`. -/
theorem mar_checkpoint_map_invariant (key iv size p pos : Nat) (c : MarCipher)
    (data : List Nat) (ks : MarKeystream)
    (hk : key < 2 ^ 32) (hiv : iv < 2 ^ 32)
    (hc : CipherInv key iv c) (hwin : c.pos + data.length ≤ c.size)
    (hks : CheckpointInv key iv ks) :
    CheckpointInv key iv (MarCipher.new key iv size).keystream ∧
    CheckpointInv key iv (c.crypt data).1.keystream ∧
    CheckpointInv key iv (c.seek_internal p).keystream ∧
    CheckpointInv key iv (ks.get_keystream pos).2 := by
  refine ⟨(CipherInv_new key iv size).1, ?_, hc.1,
    (get_keystream_spec key iv hk ks pos hks).2⟩
  by_cases hearly : c.pos = c.size ∨ data.isEmpty
  · rw [crypt_early c data hearly]
    exact hc.1
  · by_cases hpt : c.pos ≤ 4 * (c.size / 4)
    · exact (crypt_spec key iv hk c.size c.pos c data hc rfl
        (by rw [if_neg (by omega)]) hwin).2.1.1
    · -- the position sits strictly inside the final partial block:
      -- a bounded crypt touches a single block and never checkpoints
      have hpne : c.pos ≠ c.size := by tauto
      have hple : c.pos ≤ c.size := hc.2.1
      have h4 : c.pos % 4 ≠ 0 := by omega
      have hlen : data.length ≤ 4 - c.pos % 4 := by omega
      rw [crypt_main c data hearly]
      dsimp only
      rcases hit : c.current_iterator with _ | it
      · simp only [hit]
        rw [cryptLoop_ks_stable _ _ _ _ data h4 hlen]
        exact (get_keystream_spec key iv hk c.keystream c.pos hc.1).2
      · simp only [hit]
        rw [cryptLoop_ks_stable _ _ _ _ data h4 hlen]
        exact hc.1

/-- Witness for C4 at concrete states. -/
theorem mar_checkpoint_map_invariant_witness :
    CheckpointInv 1 2 (MarCipher.new 1 2 9).keystream ∧
    CheckpointInv 1 2 ((MarCipher.new 1 2 9).crypt [1, 2, 3]).1.keystream ∧
    CheckpointInv 1 2 ((MarCipher.new 1 2 9).seek_internal 5).keystream ∧
    CheckpointInv 1 2 ((MarKeystream.new 1 2).get_keystream 7).2 :=
  mar_checkpoint_map_invariant 1 2 9 5 7 (MarCipher.new 1 2 9) [1, 2, 3]
    (MarKeystream.new 1 2) (by decide) (by decide)
    (CipherInv_new 1 2 9) (by decide) (by decide)

lemma readUntilZero_append_zero (raw : List Nat) (h0 : (0 : Nat) ∉ raw) :
    readUntilZero (raw ++ [0]) = raw ++ [0] := by
  induction raw with
  | nil => rfl
  | cons b bs ih =>
    have hb : b ≠ 0 := fun hc => h0 (by simp [hc])
    simp only [List.cons_append, readUntilZero, if_neg hb]
    exact congrArg (List.cons b) (ih (fun hc => h0 (List.mem_cons_of_mem b hc)))

lemma le4_recompose (n : Nat) (hn : n < 2 ^ 32) :
    n % 256 + 256 * (n / 256 % 256) + 2 ^ 16 * (n / 2 ^ 16 % 256)
      + 2 ^ 24 * (n / 2 ^ 24 % 256) = n := by
  omega

lemma readU32le_exact (pre : List Nat) (n : Nat) (rest : List Nat)
    (hn : n < 2 ^ 32) :
    readU32le (pre ++ (toLE4 n ++ rest)) pre.length = some n := by
  unfold readU32le toLE4
  rw [List.drop_left]
  simp only [List.cons_append]
  exact congrArg some (le4_recompose n hn)

lemma mar_read_file_name_pos_lt (input : List Nat) (pos : Nat)
    (a b : List Nat) (p1 : Nat)
    (h : mar_read_file_name input pos = some (a, b, p1)) : pos < p1 := by
  unfold mar_read_file_name at h
  by_cases hb : (readUntilZero (input.drop pos)).isEmpty
  · rw [if_pos hb] at h
    exact Option.noConfusion h
  · rw [if_neg hb] at h
    have h1 : 1 ≤ (readUntilZero (input.drop pos)).length := by
      cases hrz : readUntilZero (input.drop pos) with
      | nil => rw [hrz] at hb; simp at hb
      | cons x xs => simp
    have h2 : p1 = pos + (readUntilZero (input.drop pos)).length := by
      have := (Option.some.inj h)
      exact (congrArg (fun t => t.2.2) this).symm
    omega

lemma getElem?_some_lt (l : List Nat) (n x : Nat) (h : l[n]? = some x) :
    n < l.length := by
  by_contra hn
  rw [List.getElem?_eq_none (by omega)] at h
  exact Option.noConfusion h

lemma openScan_append_none (pre rest : List KArchiveInnerM) (path : List Nat)
    (hpre : ∀ b ∈ pre, hmGetP b.files path = none) :
    openScan (pre ++ rest) path = openScan rest path := by
  induction pre with
  | nil => rfl
  | cons b bs ih =>
    have hb : hmGetP b.files path = none := hpre b (List.mem_cons_self b bs)
    show openScan (b :: (bs ++ rest)) path = _
    rw [openScan, hb]
    exact ih (fun x hx => hpre x (List.mem_cons_of_mem b hx))

lemma openScan_eq_none_iff (bs : List KArchiveInnerM) (q : List Nat) :
    openScan bs q = none ↔ ∀ b ∈ bs, hmGetP b.files q = none := by
  induction bs with
  | nil => simp [openScan]
  | cons b rest ih =>
    cases hb : hmGetP b.files q with
    | some info =>
      rw [openScan, hb]
      constructor
      · intro h; exact Option.noConfusion h
      · intro h
        rw [h b (List.mem_cons_self b rest)] at hb
        exact Option.noConfusion hb
    | none =>
      rw [openScan, hb, ih]
      constructor
      · intro h x hx
        rcases List.mem_cons.mp hx with hx | hx
        · rw [hx]; exact hb
        · exact h x hx
      · intro h x hx; exact h x (List.mem_cons_of_mem b hx)

/-- C5 (counterexample): on a MAR stream with a correct magic, one
well-formed tag-1 entry, and then the tag byte `3`, the parser hits
`unreachable!("Invalid mar")` and the process aborts — it does NOT
return the partial one-entry index as a successful parse with a
warning, as the claim states. -/
theorem mar_parse_bad_tag_cx :
    mar_parse marBadTagInput = some MarParseDone.crashed ∧
    ∀ (files : List (List Nat × Nat × Nat)) (warned : Bool),
      mar_parse marBadTagInput ≠ some (MarParseDone.finished files warned) := by
  have hloop : mar_parse_loop marBadTagInput 8 [] = MarParseDone.crashed := by
    rw [mar_parse_loop]
    show mar_parse_loop marBadTagInput 15 [([97], 0, 15)] = MarParseDone.crashed
    rw [mar_parse_loop]
    rfl
  have hmain : mar_parse marBadTagInput = some MarParseDone.crashed := by
    rw [mar_parse, if_pos (show marBadTagInput.take 8
      = [77, 65, 83, 77, 65, 82, 48, 0] from rfl), hloop]
  refine ⟨hmain, ?_⟩
  intro files warned hcontra
  rw [hmain] at hcontra
  exact MarParseDone.noConfusion (Option.some.inj hcontra)

/-- C5 (amended): when the MAR entry loop reads a tag byte other than
`0x01`, `0x02`, or `0xFF`, it panics via `unreachable!("Invalid mar")`
(modelled by `MarParseDone.crashed`) instead of warning and returning
the partial index. -/
theorem mar_parse_bad_tag_aborts (input : List Nat) (pos : Nat)
    (files : List (List Nat × Nat × Nat)) (tag : Nat)
    (hm : input[pos]? = some tag)
    (h1 : tag ≠ 1) (h2 : tag ≠ 2) (h3 : tag ≠ 255) :
    mar_parse_loop input pos files = MarParseDone.crashed := by
  rw [mar_parse_loop]
  split
  · rename_i hnone
    rw [hnone] at hm
    exact Option.noConfusion hm
  · rename_i t hsome
    rw [hm] at hsome
    have ht : t = tag := (Option.some.inj hsome).symm
    subst ht
    rw [if_neg h1, if_neg h2, if_neg h3]

theorem mar_parse_bad_tag_aborts_witness :
    ([3] : List Nat)[0]? = some 3 ∧ (3 : Nat) ≠ 1 ∧ (3 : Nat) ≠ 2 ∧
      (3 : Nat) ≠ 255 ∧
      mar_parse_loop [3] 0 [] = MarParseDone.crashed :=
  ⟨rfl, by decide, by decide, by decide,
   mar_parse_bad_tag_aborts [3] 0 [] 3 rfl (by decide) (by decide) (by decide)⟩

/-- C7 (counterexample): the QAR reader's trim set is `['.', '\\']`
only, so a stored name beginning with `'/'` keeps its leading `'/'` in
the map key, contradicting the claimed normalization (which would
strip it). -/
theorem path_normalization_cx :
    qar_read_file_name [47, 97, 0] 0 = some ([47, 97], 132) ∧
    claimed_path_normalize [47, 97] = [97] ∧
    ([47, 97] : List Nat) ≠ [97] := by
  refine ⟨?_, by decide, by decide⟩
  rw [qar_read_file_name, if_pos (by decide)]
  decide

/-- C7 (amended): per-format name handling on a NUL-terminated name
whose body contains no NUL.  MAR strips leading `'.'`, `'\\'`, `'/'`
and replaces `'\\'` by `'/'`, exactly as the claim states; QAR and BAR
strip only leading `'.'` and `'\\'` — a leading `'/'` is kept — before
the same replacement; CAB only drops the trailing NUL; D2 stores the
raw name bytes completely unmodified. -/
theorem path_normalization_per_format (raw : List Nat) (sz : Nat)
    (h0 : (0 : Nat) ∉ raw) (hlen : raw.length < 2 ^ 32)
    (hsz : sz < 2 ^ 32) :
    mar_read_file_name (raw ++ [0]) 0
      = some (claimed_path_normalize raw, raw, raw.length + 1) ∧
    qar_read_file_name (raw ++ [0]) 0
      = some ((raw.dropWhile (fun b => b == 46 || b == 92)).map
          (fun b => if b == 92 then 47 else b), 132) ∧
    bar_read_file_name (raw ++ [0]) 0
      = some ((raw.dropWhile (fun b => b == 46 || b == 92)).map
          (fun b => if b == 92 then 47 else b), 256) ∧
    cab_read_file_name (raw ++ [0]) 0 = some (raw, raw.length + 1) ∧
    d2_read_file_header
      (1 :: (toLE4 raw.length ++ (toLE4 sz ++ (List.replicate 16 0 ++ raw)))) 0
      = some (raw, sz) := by
  have hrz : readUntilZero ((raw ++ [0]).drop 0) = raw ++ [0] := by
    rw [List.drop_zero]
    exact readUntilZero_append_zero raw h0
  have hlast : (raw ++ [0]).getLast? = some 0 := by
    rw [List.getLast?_concat]
  have hdl : (raw ++ [0]).dropLast = raw := List.dropLast_concat
  have hlen1 : (raw ++ [0]).length = raw.length + 1 := by
    rw [List.length_append, List.length_cons, List.length_nil]
  refine ⟨?_, ?_, ?_, ?_, ?_⟩
  · rw [mar_read_file_name, hrz]
    rw [if_neg]
    · rw [hdl, hlen1, Nat.zero_add]
      try rfl
    · simp
  · rw [qar_read_file_name, hrz, if_pos hlast, hdl]
    rfl
  · rw [bar_read_file_name, hrz, if_pos hlast, hdl]
    rfl
  · rw [cab_read_file_name, hrz, if_pos hlast, hdl, hlen1, Nat.zero_add]
  · rw [d2_read_file_header]
    have hd1 : (1 :: (toLE4 raw.length
        ++ (toLE4 sz ++ (List.replicate 16 0 ++ raw)))).drop 0
        = 1 :: (toLE4 raw.length ++ (toLE4 sz ++ (List.replicate 16 0 ++ raw)))
      := List.drop_zero _
    have h32a : readU32le (1 :: (toLE4 raw.length
        ++ (toLE4 sz ++ (List.replicate 16 0 ++ raw)))) (0 + 1)
        = some raw.length := by
      have := readU32le_exact [1] raw.length
        (toLE4 sz ++ (List.replicate 16 0 ++ raw)) hlen
      simpa using this
    have h32b : readU32le (1 :: (toLE4 raw.length
        ++ (toLE4 sz ++ (List.replicate 16 0 ++ raw)))) (0 + 5)
        = some sz := by
      have := readU32le_exact (1 :: toLE4 raw.length) sz
        (List.replicate 16 0 ++ raw) hsz
      have hl5 : (1 :: toLE4 raw.length).length = 5 := by
        simp [toLE4]
      rw [hl5] at this
      rw [show (1 :: (toLE4 raw.length ++ (toLE4 sz
        ++ (List.replicate 16 0 ++ raw))))
        = (1 :: toLE4 raw.length) ++ (toLE4 sz
            ++ (List.replicate 16 0 ++ raw)) from by simp]
      exact this
    have hlentot : (1 :: (toLE4 raw.length
        ++ (toLE4 sz ++ (List.replicate 16 0 ++ raw)))).length
        = 25 + raw.length := by
      simp [toLE4] <;> omega
    have hdrop25 : (1 :: (toLE4 raw.length
        ++ (toLE4 sz ++ (List.replicate 16 0 ++ raw)))).drop (0 + 25)
        = raw := by
      rw [show (1 :: (toLE4 raw.length ++ (toLE4 sz
        ++ (List.replicate 16 0 ++ raw))))
        = ((1 :: toLE4 raw.length) ++ toLE4 sz ++ List.replicate 16 0) ++ raw
        from by simp]
      have hl25 : ((1 :: toLE4 raw.length) ++ toLE4 sz
          ++ List.replicate 16 0).length = 0 + 25 := by
        simp [toLE4]
      rw [← hl25, List.drop_left]
    rw [hd1]
    show (match readU32le (1 :: (toLE4 raw.length
        ++ (toLE4 sz ++ (List.replicate 16 0 ++ raw)))) (0 + 1),
        readU32le (1 :: (toLE4 raw.length
        ++ (toLE4 sz ++ (List.replicate 16 0 ++ raw)))) (0 + 5) with
      | some path_len, some filesize =>
        if 0 + 25 + path_len ≤ (1 :: (toLE4 raw.length
            ++ (toLE4 sz ++ (List.replicate 16 0 ++ raw)))).length then
          some (((1 :: (toLE4 raw.length
            ++ (toLE4 sz ++ (List.replicate 16 0 ++ raw)))).drop
              (0 + 25)).take path_len, filesize)
        else none
      | _, _ => none) = some (raw, sz)
    rw [h32a, h32b]
    show (if 0 + 25 + raw.length ≤ (1 :: (toLE4 raw.length
        ++ (toLE4 sz ++ (List.replicate 16 0 ++ raw)))).length then
        some (((1 :: (toLE4 raw.length
          ++ (toLE4 sz ++ (List.replicate 16 0 ++ raw)))).drop
            (0 + 25)).take raw.length, sz)
      else none) = some (raw, sz)
    rw [if_pos (by rw [hlentot]), hdrop25, List.take_length]

theorem path_normalization_per_format_witness :
    (0 : Nat) ∉ ([92, 97] : List Nat) ∧
    ([92, 97] : List Nat).length < 2 ^ 32 ∧ (7 : Nat) < 2 ^ 32 ∧
    (mar_read_file_name [92, 97, 0] 0 = some ([97], [92, 97], 3) ∧
     qar_read_file_name [92, 97, 0] 0 = some ([97], 132) ∧
     bar_read_file_name [92, 97, 0] 0 = some ([97], 256) ∧
     cab_read_file_name [92, 97, 0] 0 = some ([92, 97], 3) ∧
     d2_read_file_header
       (1 :: (toLE4 2 ++ (toLE4 7 ++ (List.replicate 16 0 ++ [92, 97])))) 0
       = some ([92, 97], 7)) :=
  ⟨by decide, by decide, by decide,
   path_normalization_per_format [92, 97] 7 (by decide) (by decide) (by decide)⟩

/-- C6: `KArchive::open` returns the entry of the earliest backing that
contains the path (later backings never shadow earlier ones, and the
opened file starts at logical position 0), and it returns the
`NotFound` error exactly when no backing contains the path. -/
theorem karchive_open_first_match (pre post : List KArchiveInnerM)
    (arc : KArchiveInnerM) (path : List Nat) (info : KFileInfoM)
    (hpre : ∀ b ∈ pre, hmGetP b.files path = none)
    (hhit : hmGetP arc.files path = some info) :
    KArchiveM.openPath ⟨pre ++ arc :: post⟩ path = some ⟨info, 0⟩ ∧
    ∀ (bs : List KArchiveInnerM) (q : List Nat),
      (KArchiveM.openPath ⟨bs⟩ q = none ↔
        ∀ b ∈ bs, hmGetP b.files q = none) := by
  constructor
  · show openScan (pre ++ arc :: post) path = some ⟨info, 0⟩
    rw [openScan_append_none pre (arc :: post) path hpre, openScan, hhit]
  · intro bs q
    exact openScan_eq_none_iff bs q

theorem karchive_open_first_match_witness :
    (∀ b ∈ [(⟨[([1], ⟨1, 10, none⟩)]⟩ : KArchiveInnerM)],
      hmGetP b.files [2] = none) ∧
    hmGetP (⟨[([2], ⟨2, 20, none⟩)]⟩ : KArchiveInnerM).files [2]
      = some ⟨2, 20, none⟩ ∧
    KArchiveM.openPath
      ⟨[⟨[([1], ⟨1, 10, none⟩)]⟩, ⟨[([2], ⟨2, 20, none⟩)]⟩,
        ⟨[([2], ⟨3, 30, none⟩)]⟩]⟩ [2] = some ⟨⟨2, 20, none⟩, 0⟩ :=
  ⟨by decide, by decide,
   (karchive_open_first_match [⟨[([1], ⟨1, 10, none⟩)]⟩]
     [⟨[([2], ⟨3, 30, none⟩)]⟩] ⟨[([2], ⟨2, 20, none⟩)]⟩ [2] ⟨2, 20, none⟩
     (by decide) (by decide)).1⟩

/-- C8 (counterexample): on a cipher-backed file of size 1, a seek to
`Start(10)` succeeds (logical position 10, past the end), but the
subsequent `Current(-5)` — whose computed logical target is `5 ≥ 0`
(indeed past the end, which the claim says must succeed) — fails: the
cipher's internal position was clamped to the cipher size 1, and
`MarCipher`'s seek rejects `|delta| > cipher.pos` before the `KFile`
position is even considered. -/
theorem kfile_cipher_seek_past_end_fails_cx :
    (KFileM.seek ⟨⟨1, 0, some (MarCipher.new 0 0 1)⟩, 0⟩
        (SeekFrom.start 10)).map (fun r => (r.1, r.2.pos, r.2.info.size))
      = some (10, 10, 1) ∧
    (KFileM.seek ⟨⟨1, 0, some (MarCipher.new 0 0 1)⟩, 0⟩
        (SeekFrom.start 10)).bind
        (fun r => KFileM.seek r.2 (SeekFrom.current (-5))) = none := by
  decide

/-- C8 (amended): for cipher-free files the claim holds — a seek whose
computed logical target is negative fails with the invalid-argument
error, any other `End`/`Current` seek lands exactly on the computed
target, `Start` seeks (to any position, including past the end) always
succeed — and for every file a read at a position at or past
`info.size` returns 0 bytes and leaves the file unchanged.  (For
cipher-backed files the claim fails; see the counterexample.) -/
theorem kfile_seek_bounds_and_past_end (f : KFileM) (n : Int)
    (raw : List Nat) (buflen : Nat) (hc : f.info.cipher = none) :
    ((f.info.size : Int) + n < 0 →
      KFileM.seek f (SeekFrom.fromEnd n) = none) ∧
    ((f.pos : Int) + n < 0 → KFileM.seek f (SeekFrom.current n) = none) ∧
    (0 ≤ (f.info.size : Int) + n →
      KFileM.seek f (SeekFrom.fromEnd n)
        = some (((f.info.size : Int) + n).toNat,
            { f with pos := ((f.info.size : Int) + n).toNat })) ∧
    (0 ≤ (f.pos : Int) + n →
      KFileM.seek f (SeekFrom.current n)
        = some (((f.pos : Int) + n).toNat,
            { f with pos := ((f.pos : Int) + n).toNat })) ∧
    (∀ p : Nat, KFileM.seek f (SeekFrom.start p)
      = some (p, { f with pos := p })) ∧
    (f.info.size ≤ f.pos → KFileM.read f raw buflen = (f, [])) := by
  have hseek : ∀ sf, KFileM.seek f sf = KFileM.seekAfterCipher f sf := by
    intro sf
    rw [KFileM.seek, hc]
  refine ⟨?_, ?_, ?_, ?_, ?_, ?_⟩
  · intro hn
    rw [hseek, KFileM.seekAfterCipher,
      if_pos (show n < 0 ∧ f.info.size < n.natAbs by omega)]
  · intro hn
    rw [hseek, KFileM.seekAfterCipher,
      if_pos (show n < 0 ∧ f.pos < n.natAbs by omega)]
  · intro hn
    rw [hseek, KFileM.seekAfterCipher,
      if_neg (show ¬(n < 0 ∧ f.info.size < n.natAbs) by omega)]
  · intro hn
    rw [hseek, KFileM.seekAfterCipher,
      if_neg (show ¬(n < 0 ∧ f.pos < n.natAbs) by omega)]
  · intro p
    rw [hseek, KFileM.seekAfterCipher]
  · intro hp
    rw [KFileM.read, if_pos hp]

theorem kfile_seek_bounds_and_past_end_witness :
    ((⟨⟨5, 0, none⟩, 2⟩ : KFileM).info.cipher = none) ∧
    (((5 : Int) + (-3) < 0 →
        KFileM.seek ⟨⟨5, 0, none⟩, 2⟩ (SeekFrom.fromEnd (-3)) = none) ∧
     ((2 : Int) + (-3) < 0 →
        KFileM.seek ⟨⟨5, 0, none⟩, 2⟩ (SeekFrom.current (-3)) = none) ∧
     (0 ≤ (5 : Int) + (-3) →
        KFileM.seek ⟨⟨5, 0, none⟩, 2⟩ (SeekFrom.fromEnd (-3))
          = some (2, ⟨⟨5, 0, none⟩, 2⟩)) ∧
     (0 ≤ (2 : Int) + (-3) →
        KFileM.seek ⟨⟨5, 0, none⟩, 2⟩ (SeekFrom.current (-3))
          = some (((2 : Int) + (-3)).toNat,
              ⟨⟨5, 0, none⟩, ((2 : Int) + (-3)).toNat⟩)) ∧
     (∀ p : Nat, KFileM.seek ⟨⟨5, 0, none⟩, 2⟩ (SeekFrom.start p)
        = some (p, ⟨⟨5, 0, none⟩, p⟩)) ∧
     ((5 : Nat) ≤ 2 →
        KFileM.read ⟨⟨5, 0, none⟩, 2⟩ [1, 2, 3] 2 = (⟨⟨5, 0, none⟩, 2⟩, []))) :=
  ⟨rfl, kfile_seek_bounds_and_past_end ⟨⟨5, 0, none⟩, 2⟩ (-3) [1, 2, 3] 2 rfl⟩

end KA
